import Mathlib

/-!
Verification of the Merkle commitment subsystem of the safe-storage
repository (src/merkle.rs, src/sha3.rs), as a shallow embedding in Lean.

Conventions of the embedding:
  * The Rust code is generic over a digest type `T` with a trait
    `Hash<T> { fn hash_of(left, right) }`; here that trait is the class
    `Merkle.Hash`, and all tree definitions are generic over it, exactly as
    in the source.  The test instantiation `impl Hash<u64> for u64`
    (addition) is mirrored by the `Merkle.Hash Nat` instance.
  * Rust operations that can panic (index out of range, integer underflow,
    a failed `assert!`) are modelled as `Option`-returning functions where
    `none` is the panic.  A proof that such a function returns `some` on
    the reachable states is a proof of panic freedom.
  * `Vec::push` becomes `l ++ [x]`; overwriting the last element
    (`l[l.len() - 1] = x`) becomes `l.dropLast ++ [x]`, guarded by `none`
    when the vector is empty (the Rust `len() - 1` underflow panic).
  * `Tree::update_next_layer(layer, ..)` walks `self.nodes` from index
    `layer` upward and only ever touches `nodes[layer..]`; it is modelled
    structurally on that suffix, with the Rust `nodes.push(..)` when
    `nodes.get_mut(layer)` is `None` appearing as the `[]` case.
-/

namespace Merkle

/-- The combining trait of src/merkle.rs: `pub trait Hash<T> { fn hash_of(left: &T, right: &T) -> T; }`. -/
class Hash (T : Type) where
  hash_of : T → T → T

export Hash (hash_of)

variable {T : Type}

/-- The full tree of src/merkle.rs: `leaves` is level 0, `nodes[k]` is level `k + 1`. -/
structure Tree (T : Type) where
  leaves : List T
  nodes : List (List T)
deriving DecidableEq

/-- `Tree::new()`. -/
def Tree.new : Tree T := ⟨[], []⟩

/-- `Tree::root()`: `self.nodes.last().and_then(|top| top.last().cloned())`. -/
def Tree.root (t : Tree T) : Option T :=
  t.nodes.getLast?.bind List.getLast?

/-- The helper `hash_of_siblings` of src/merkle.rs: hash of the last sibling
pair of a level (`(l[last-1], l[last])` when the length is even, the last
element with itself when odd), paired with `right_child_exists`.  On the empty
list the Rust `hash_list.len() - 1` indexing panics; that is the `none`. -/
def hash_of_siblings [Hash T] (hash_list : List T) : Option (T × Bool) :=
  if hash_list.length % 2 == 0 then
    match hash_list.dropLast.getLast?, hash_list.getLast? with
    | some left, some right => some (hash_of left right, true)
    | _, _ => none
  else
    match hash_list.getLast? with
    | some last => some (hash_of last last, false)
    | none => none

/-- `Tree::update_next_layer(layer, hash, update_last_hash)`, modelled on the
suffix `nodes[layer..]` of the level list.  The `[]` case is Rust's
`nodes.get_mut(layer) == None` branch (push a fresh top level); otherwise the
first level gets its last entry overwritten (`update_last_hash`) or pushed,
and recursion continues with `right_child_added || update_last_hash` unless
the updated level has length 1. -/
def update_next_layer [Hash T] : List (List T) → T → Bool → Option (List (List T))
  | [], hash, _ => some [[hash]]
  | hash_list :: rest, hash, update_last_hash => do
    let updated ←
      if update_last_hash then
        match hash_list with
        | [] => none
        | _ :: _ => some (hash_list.dropLast ++ [hash])
      else
        some (hash_list ++ [hash])
    if updated.length == 1 then
      some (updated :: rest)
    else do
      let (hashed, right_child_added) ← hash_of_siblings updated
      let rest' ← update_next_layer rest hashed (right_child_added || update_last_hash)
      some (updated :: rest')

/-- `Tree::append(hash)`: push the leaf, then propagate from layer 0. -/
def Tree.append [Hash T] (t : Tree T) (hash : T) : Option (Tree T) := do
  let leaves := t.leaves ++ [hash]
  let (hashed, right_child_added) ← hash_of_siblings leaves
  let nodes ← update_next_layer t.nodes hashed right_child_added
  some ⟨leaves, nodes⟩

/-- The proof entry enum of src/merkle.rs, spelling (`RightSiblign`) included. -/
inductive ProofNode (T : Type) where
  | None : ProofNode T
  | RightSiblign : T → ProofNode T
  | LeftSibling : T → ProofNode T
deriving DecidableEq

/-- `usize` subtraction: `none` is the Rust underflow panic. -/
def checkedSub (a b : Nat) : Option Nat :=
  if b ≤ a then some (a - b) else none

/-- The helper `proof_node_with_sibling` of src/merkle.rs: the sibling is at
`index + 1` when `index` is even, at `index - 1` when odd; a missing sibling
(`get` out of range) is `ProofNode::None`.  The `index - 1` is `usize`
subtraction, hence `checkedSub`. -/
def proof_node_with_sibling (hash_list : List T) (index : Nat) : Option (ProofNode T) := do
  let sibling_is_on_the_right := index % 2 == 0
  let pos ←
    if sibling_is_on_the_right then
      some (index + 1)
    else
      checkedSub index 1
  match hash_list.get? pos with
  | some h =>
    some (if sibling_is_on_the_right then ProofNode.RightSiblign h else ProofNode.LeftSibling h)
  | none => some ProofNode.None

/-- The proof object of src/merkle.rs. -/
structure Proof (T : Type) where
  nodes : List (ProofNode T)
deriving DecidableEq

/-- The `for layer in &self.nodes` loop of `Tree::proof_for`: stop at the
first level of length 1, otherwise halve the index and emit the sibling
entry for that level. -/
def proofLoop (layers : List (List T)) (index : Nat) : Option (List (ProofNode T)) :=
  match layers with
  | [] => some []
  | layer :: rest =>
    if layer.length == 1 then
      some []
    else do
      let pn ← proof_node_with_sibling layer (index / 2)
      let tail ← proofLoop rest (index / 2)
      some (pn :: tail)

/-- `Tree::proof_for(index)`.  The outer `Option` is panic freedom; the inner
`Option` is the Rust return type `Option<Proof<T>>`.  Note that the Rust body
ends in `Some(Proof { nodes: proof_nodes })` unconditionally — there is no
index bound check, so the inner option is never `None`. -/
def Tree.proof_for (t : Tree T) (index : Nat) : Option (Option (Proof T)) := do
  let direct_sibling ← proof_node_with_sibling t.leaves index
  let tail ← proofLoop t.nodes index
  some (some ⟨direct_sibling :: tail⟩)

/-- One step of the fold inside `Proof::verify`. -/
def proofStep [Hash T] (h : T) (node : ProofNode T) : T :=
  match node with
  | ProofNode.None => hash_of h h
  | ProofNode.RightSiblign right_sibling_hash => hash_of h right_sibling_hash
  | ProofNode.LeftSibling left_sibling_hash => hash_of left_sibling_hash h

/-- `Proof::verify`: fold the entries from the leaf up and compare with the
expected root. -/
def Proof.verify [Hash T] [DecidableEq T] (p : Proof T) (root_hash : T) (hash : T) : Bool :=
  decide (root_hash = p.nodes.foldl proofStep hash)

/-- The frontier state tag of src/merkle.rs. -/
inductive NodeState (T : Type) where
  | PartialLeft : T → NodeState T
  | PartialRight : T → NodeState T
  | Full : NodeState T
deriving DecidableEq

/-- Discriminant comparison `state == NodeState::Full` (payloadless variant,
so Rust's derived `PartialEq` only checks the tag). -/
def NodeState.isFull : NodeState T → Bool
  | NodeState.Full => true
  | _ => false

/-- One frontier node of the light tree. -/
structure LightNode (T : Type) where
  hash : T
  state : NodeState T
deriving DecidableEq

/-- `LightNode::new_node(hash, new_element_stored, full_previous_node)`.
The `assert!(new_element_stored)` in the `PartialLeft` arm is the `none`. -/
def LightNode.new_node [Hash T] (self : LightNode T) (hash : T)
    (new_element_stored : Bool) (full_previous_node : Bool) :
    Option (LightNode T × Bool) :=
  match self.state with
  | NodeState.PartialLeft left_hash =>
    if new_element_stored then
      some (⟨hash_of hash hash,
             if full_previous_node then NodeState.PartialRight hash
             else NodeState.PartialLeft left_hash⟩,
            new_element_stored)
    else
      none
  | NodeState.PartialRight left_hash =>
    if new_element_stored then
      some (⟨hash_of left_hash hash,
             if full_previous_node then NodeState.Full
             else NodeState.PartialRight left_hash⟩,
            new_element_stored)
    else
      some (⟨hash_of left_hash hash, NodeState.Full⟩, true)
  | NodeState.Full =>
    if new_element_stored then
      some (⟨hash_of hash hash, NodeState.PartialLeft hash⟩, new_element_stored)
    else
      some (⟨hash_of hash hash, NodeState.PartialRight hash⟩, true)

/-- The light tree of src/merkle.rs: frontier nodes, bottom level first. -/
structure LightTree (T : Type) where
  nodes : List (LightNode T)
deriving DecidableEq

/-- `LightTree::new()`. -/
def LightTree.new : LightTree T := ⟨[]⟩

/-- The topmost-node maintenance step of `LightTree::append`: if the current
top of the frontier is `Full`, push a `PartialRight` copy of it on top. -/
def pushStep (nodes : List (LightNode T)) : List (LightNode T) :=
  match nodes.getLast? with
  | some node =>
    if node.state.isFull then
      nodes ++ [⟨node.hash, NodeState.PartialRight node.hash⟩]
    else
      nodes
  | none => nodes

/-- The `for node in self.nodes.iter_mut()` loop of `LightTree::append`,
threading `next_hash`, `new_element_stored` and `full_previous_node`. -/
def walkNodes [Hash T] : List (LightNode T) → T → Bool → Bool → Option (List (LightNode T))
  | [], _, _, _ => some []
  | node :: rest, next_hash, new_element_stored, full_previous_node => do
    let (new_node, stored) ← node.new_node next_hash new_element_stored full_previous_node
    let tail ← walkNodes rest new_node.hash stored new_node.state.isFull
    some (new_node :: tail)

/-- `LightTree::append(elem)`. -/
def LightTree.append [Hash T] (t : LightTree T) (elem : T) : Option (LightTree T) :=
  match t.nodes with
  | [] => some ⟨[⟨hash_of elem elem, NodeState.PartialRight elem⟩]⟩
  | _ :: _ => do
    let nodes := pushStep t.nodes
    let nodes' ← walkNodes nodes elem false false
    some ⟨nodes'⟩

/-- `LightTree::root()`. -/
def LightTree.root (t : LightTree T) : Option T :=
  t.nodes.getLast?.map LightNode.hash

/-- A full tree built by appending the given leaves, in order, to `Tree::new()`. -/
def treeOf [Hash T] (l : List T) : Option (Tree T) :=
  l.foldlM Tree.append Tree.new

/-- A light tree built by appending the given leaves, in order, to `LightTree::new()`. -/
def lightOf [Hash T] (l : List T) : Option (LightTree T) :=
  l.foldlM LightTree.append LightTree.new

/-- The toy digest of the src/merkle.rs tests: `impl Hash<u64> for u64`
combining by addition. -/
instance : Hash Nat := ⟨fun a b => a + b⟩

/-!
Functional characterisation of the level structure.  `levelUp` maps a level
to the level above it under the duplicate-last-sibling padding rule;
`buildNodes` is the whole `nodes` field as a function of the leaves.  The
simulation theorem `update_sim` below shows `Tree::append` maintains
`nodes = buildNodes leaves`.
-/

/-- Parents of one level: adjacent pairs, the unpaired last element hashed
with itself. -/
def levelUp [Hash T] : List T → List T
  | [] => []
  | [a] => [hash_of a a]
  | a :: b :: rest => hash_of a b :: levelUp rest

theorem levelUp_length [Hash T] : ∀ l : List T, (levelUp l).length = (l.length + 1) / 2
  | [] => by simp [levelUp]
  | [_] => by simp [levelUp]
  | _ :: _ :: rest => by
    simp only [levelUp, List.length_cons, levelUp_length rest]
    omega

theorem levelUp_ne_nil [Hash T] : ∀ l : List T, l ≠ [] → levelUp l ≠ []
  | [_], _ => by simp [levelUp]
  | _ :: _ :: _, _ => by simp [levelUp]

theorem levelUp_append_even [Hash T] : ∀ (l t : List T), l.length % 2 = 0 →
    levelUp (l ++ t) = levelUp l ++ levelUp t
  | [], _, _ => rfl
  | [_], _, h => by simp at h
  | a :: b :: rest, t, h => by
    have hr : rest.length % 2 = 0 := by
      simp only [List.length_cons] at h; omega
    simp only [List.cons_append, levelUp]
    exact congrArg (hash_of a b :: ·) (levelUp_append_even rest t hr)

/-- Split a nonempty list at its last element. -/
theorem eq_dropLast_concat {l : List T} {b : T} (hb : l.getLast? = some b) :
    l = l.dropLast ++ [b] := by
  have hne : l ≠ [] := by
    intro e; subst e; simp at hb
  have hlast : l.getLast hne = b := by
    have := List.getLast?_eq_getLast l hne
    rw [this] at hb
    exact Option.some_injective _ hb
  conv_lhs => rw [← List.dropLast_append_getLast hne, hlast]

theorem length_pos_of_getLast? {l : List T} {b : T} (hb : l.getLast? = some b) :
    0 < l.length := by
  rcases l with _ | _
  · simp at hb
  · simp

/-- Appending to an even-length level appends a self-pair to the level above. -/
theorem levelUp_snoc_even [Hash T] (l : List T) (x : T) (h : l.length % 2 = 0) :
    levelUp (l ++ [x]) = levelUp l ++ [hash_of x x] :=
  levelUp_append_even l [x] h

/-- Appending to an odd-length level overwrites the last entry of the level
above: the padding self-pair of the old last element becomes a real pair. -/
theorem levelUp_snoc_odd [Hash T] (l : List T) (x b : T) (h : l.length % 2 = 1)
    (hb : l.getLast? = some b) :
    levelUp (l ++ [x]) = (levelUp l).dropLast ++ [hash_of b x] := by
  have hd : l.dropLast.length % 2 = 0 := by
    have := length_pos_of_getLast? hb
    simp only [List.length_dropLast]; omega
  have hsplit := eq_dropLast_concat hb
  have h1 : levelUp (l ++ [x]) = levelUp l.dropLast ++ [hash_of b x] := by
    conv_lhs => rw [hsplit, List.append_assoc]
    rw [levelUp_append_even _ _ hd]; rfl
  have h2 : levelUp l = levelUp l.dropLast ++ [hash_of b b] := by
    conv_lhs => rw [hsplit]
    rw [levelUp_append_even _ _ hd]; rfl
  rw [h1, h2, List.dropLast_concat]

/-- Overwriting the last entry of an odd-length level overwrites the last
entry (a padding self-pair) of the level above. -/
theorem levelUp_overwrite_odd [Hash T] (l : List T) (x : T) (h : l.length % 2 = 1) :
    levelUp (l.dropLast ++ [x]) = (levelUp l).dropLast ++ [hash_of x x] := by
  have hne : l ≠ [] := by
    intro e; subst e; simp at h
  obtain ⟨b, hb⟩ := Option.isSome_iff_exists.mp (List.getLast?_isSome.mpr hne)
  have hd : l.dropLast.length % 2 = 0 := by
    have := length_pos_of_getLast? hb
    simp only [List.length_dropLast]; omega
  have h1 : levelUp (l.dropLast ++ [x]) = levelUp l.dropLast ++ [hash_of x x] := by
    rw [levelUp_append_even _ _ hd]; rfl
  have h2 : levelUp l = levelUp l.dropLast ++ [hash_of b b] := by
    conv_lhs => rw [eq_dropLast_concat hb]
    rw [levelUp_append_even _ _ hd]; rfl
  rw [h1, h2, List.dropLast_concat]

/-- Overwriting the last entry of an even-length level overwrites the last
entry of the level above with the recomputed pair. -/
theorem levelUp_overwrite_even [Hash T] (l : List T) (x a : T) (h : l.length % 2 = 0)
    (ha : l.dropLast.getLast? = some a) :
    levelUp (l.dropLast ++ [x]) = (levelUp l).dropLast ++ [hash_of a x] := by
  have hne : l ≠ [] := by
    intro e; subst e; simp at ha
  obtain ⟨b, hb⟩ := Option.isSome_iff_exists.mp (List.getLast?_isSome.mpr hne)
  have hd2 : l.dropLast.dropLast.length % 2 = 0 := by
    have h1 := length_pos_of_getLast? hb
    have h2 := length_pos_of_getLast? ha
    simp only [List.length_dropLast] at h2 ⊢
    omega
  have hsplit : l = l.dropLast.dropLast ++ [a, b] := by
    conv_lhs => rw [eq_dropLast_concat hb]
    conv_lhs => rw [eq_dropLast_concat ha]
    simp
  have h1 : levelUp (l.dropLast ++ [x]) = levelUp l.dropLast.dropLast ++ [hash_of a x] := by
    conv_lhs => rw [eq_dropLast_concat ha, List.append_assoc]
    rw [levelUp_append_even _ _ hd2]; rfl
  have h2 : levelUp l = levelUp l.dropLast.dropLast ++ [hash_of a b] := by
    conv_lhs => rw [hsplit]
    rw [levelUp_append_even _ _ hd2]; rfl
  rw [h1, h2, List.dropLast_concat]

/-- Last entry of the level above an even-length level. -/
theorem levelUp_getLast_even [Hash T] (l : List T) (a b : T) (h : l.length % 2 = 0)
    (ha : l.dropLast.getLast? = some a) (hb : l.getLast? = some b) :
    (levelUp l).getLast? = some (hash_of a b) := by
  have hd2 : l.dropLast.dropLast.length % 2 = 0 := by
    have h1 := length_pos_of_getLast? hb
    have h2 := length_pos_of_getLast? ha
    simp only [List.length_dropLast] at h2 ⊢
    omega
  have hsplit : l = l.dropLast.dropLast ++ [a, b] := by
    conv_lhs => rw [eq_dropLast_concat hb]
    conv_lhs => rw [eq_dropLast_concat ha]
    simp
  have h2 : levelUp l = levelUp l.dropLast.dropLast ++ [hash_of a b] := by
    conv_lhs => rw [hsplit]
    rw [levelUp_append_even _ _ hd2]; rfl
  rw [h2, List.getLast?_concat]

/-- Last entry of the level above an odd-length level. -/
theorem levelUp_getLast_odd [Hash T] (l : List T) (b : T) (h : l.length % 2 = 1)
    (hb : l.getLast? = some b) :
    (levelUp l).getLast? = some (hash_of b b) := by
  have hd : l.dropLast.length % 2 = 0 := by
    have := length_pos_of_getLast? hb
    simp only [List.length_dropLast]; omega
  have h2 : levelUp l = levelUp l.dropLast ++ [hash_of b b] := by
    conv_lhs => rw [eq_dropLast_concat hb]
    rw [levelUp_append_even _ _ hd]; rfl
  rw [h2, List.getLast?_concat]

theorem hash_of_siblings_even [Hash T] (l : List T) (a b : T) (h : l.length % 2 = 0)
    (ha : l.dropLast.getLast? = some a) (hb : l.getLast? = some b) :
    hash_of_siblings l = some (hash_of a b, true) := by
  simp [hash_of_siblings, h, ha, hb]

theorem hash_of_siblings_odd [Hash T] (l : List T) (b : T) (h : l.length % 2 = 1)
    (hb : l.getLast? = some b) :
    hash_of_siblings l = some (hash_of b b, false) := by
  simp [hash_of_siblings, h, hb]

/-- On any nonempty level, `hash_of_siblings` succeeds, returns the parity
flag, and computes exactly the last entry of the level above. -/
theorem hash_of_siblings_of_ne_nil [Hash T] (l : List T) (hne : l ≠ []) :
    ∃ p, hash_of_siblings l = some (p, decide (l.length % 2 = 0)) ∧
      (levelUp l).getLast? = some p := by
  obtain ⟨b, hb⟩ := Option.isSome_iff_exists.mp (List.getLast?_isSome.mpr hne)
  rcases Nat.mod_two_eq_zero_or_one l.length with h | h
  · have hdne : l.dropLast ≠ [] := by
      have := length_pos_of_getLast? hb
      intro e
      have : l.dropLast.length = 0 := by rw [e]; rfl
      simp only [List.length_dropLast] at this
      omega
    obtain ⟨a, ha⟩ := Option.isSome_iff_exists.mp (List.getLast?_isSome.mpr hdne)
    refine ⟨hash_of a b, ?_, levelUp_getLast_even l a b h ha hb⟩
    rw [hash_of_siblings_even l a b h ha hb]
    simp [h]
  · refine ⟨hash_of b b, ?_, levelUp_getLast_odd l b h hb⟩
    rw [hash_of_siblings_odd l b h hb]
    simp [h]

/-- The `nodes` field as a function of the leaves: successive `levelUp`
levels, stopping at the first level of length 1 (the root level). -/
def buildNodes [Hash T] : List T → List (List T)
  | [] => []
  | a :: rest =>
    if (levelUp (a :: rest)).length = 1 then [levelUp (a :: rest)]
    else levelUp (a :: rest) :: buildNodes (levelUp (a :: rest))
termination_by l => l.length
decreasing_by
  simp only [levelUp_length, List.length_cons] at *
  omega

theorem buildNodes_eq_of_ne_nil [Hash T] (l : List T) (h : l ≠ []) :
    buildNodes l =
      if (levelUp l).length = 1 then [levelUp l]
      else levelUp l :: buildNodes (levelUp l) := by
  cases l with
  | nil => exact absurd rfl h
  | cons a rest => rw [buildNodes]

theorem buildNodes_ne_nil [Hash T] (l : List T) (h : l ≠ []) : buildNodes l ≠ [] := by
  rw [buildNodes_eq_of_ne_nil l h]
  split <;> simp

theorem buildNodes_nil [Hash T] : buildNodes ([] : List T) = [] := by
  rw [buildNodes]

theorem eq_singleton_of_length_one {l : List T} {q : T} (h1 : l.length = 1)
    (h2 : l.getLast? = some q) : l = [q] := by
  obtain ⟨a, rfl⟩ := List.length_eq_one.mp h1
  simp only [List.getLast?_singleton, Option.some.injEq] at h2
  rw [h2]

theorem update_next_layer_nil [Hash T] (h : T) (b : Bool) :
    update_next_layer ([] : List (List T)) h b = some [[h]] := rfl

/-- One step of `update_next_layer` when the updated level becomes the
(length-1) top: recursion stops. -/
theorem update_next_layer_stop [Hash T] (hl : List T) (rest : List (List T)) (h : T)
    (b : Bool) (updated : List T) (hne : hl ≠ [])
    (hupd : (if b then hl.dropLast else hl) ++ [h] = updated)
    (h1 : updated.length = 1) :
    update_next_layer (hl :: rest) h b = some (updated :: rest) := by
  obtain ⟨c, cs, rfl⟩ : ∃ c cs, hl = c :: cs := by
    cases hl with
    | nil => exact absurd rfl hne
    | cons c cs => exact ⟨c, cs, rfl⟩
  cases b with
  | true =>
    rw [if_pos rfl] at hupd
    subst hupd
    simp only [update_next_layer, if_true, bind, Option.bind, beq_iff_eq]
    rw [if_pos h1]
  | false =>
    rw [if_neg Bool.false_ne_true] at hupd
    subst hupd
    simp only [update_next_layer, Bool.false_eq_true, if_false, bind, Option.bind, beq_iff_eq]
    rw [if_pos h1]

/-- One step of `update_next_layer` when the updated level keeps length over
1: hash its last siblings and recurse with the sticky overwrite flag. -/
theorem update_next_layer_go [Hash T] (hl : List T) (rest : List (List T)) (h : T)
    (b : Bool) (updated : List T) (q : T) (e2 : Bool) (rest' : List (List T))
    (hne : hl ≠ [])
    (hupd : (if b then hl.dropLast else hl) ++ [h] = updated)
    (h1 : updated.length ≠ 1)
    (hq : hash_of_siblings updated = some (q, e2))
    (hrec : update_next_layer rest q (e2 || b) = some rest') :
    update_next_layer (hl :: rest) h b = some (updated :: rest') := by
  obtain ⟨c, cs, rfl⟩ : ∃ c cs, hl = c :: cs := by
    cases hl with
    | nil => exact absurd rfl hne
    | cons c cs => exact ⟨c, cs, rfl⟩
  cases b with
  | true =>
    rw [if_pos rfl] at hupd
    subst hupd
    rw [Bool.or_true] at hrec
    simp only [update_next_layer, if_true, bind, Option.bind, beq_iff_eq]
    rw [if_neg h1, hq]
    simp only [Bool.or_true]
    rw [hrec]
  | false =>
    rw [if_neg Bool.false_ne_true] at hupd
    subst hupd
    rw [Bool.or_false] at hrec
    simp only [update_next_layer, Bool.false_eq_true, if_false, bind, Option.bind, beq_iff_eq]
    rw [if_neg h1, hq]
    simp only [Bool.or_false]
    rw [hrec]

theorem update_sim_nil [Hash T] (x : T) (flag : Bool)
    (hflag : flag = true → ([] : List T) ≠ []) :
    ∃ p e, hash_of_siblings ((if flag then ([] : List T).dropLast else []) ++ [x]) = some (p, e) ∧
      update_next_layer (buildNodes ([] : List T)) p (e || flag)
        = some (buildNodes ((if flag then ([] : List T).dropLast else []) ++ [x])) := by
  cases flag with
  | true => exact absurd rfl (hflag rfl)
  | false =>
    refine ⟨hash_of x x, false, ?_, ?_⟩
    · rw [if_neg Bool.false_ne_true]
      exact hash_of_siblings_odd ([] ++ [x]) x (by simp) (by simp)
    · rw [if_neg Bool.false_ne_true, buildNodes_nil, update_next_layer_nil,
        buildNodes_eq_of_ne_nil ([] ++ [x]) (by simp)]
      simp [levelUp]

/-- Core simulation of `Tree::append`'s upward propagation: if the level
below was just updated from `w` to `w'` (overwrite of the last entry when
`flag`, push otherwise), then `update_next_layer` run on the stored levels
above `w` — which are `buildNodes w` — with the parent of `w'`'s last
siblings and the sticky flag produces exactly `buildNodes w'`. -/
theorem update_sim [Hash T] : ∀ (n : Nat) (w : List T), w.length ≤ n →
    ∀ (x : T) (flag : Bool), (flag = true → w ≠ []) →
    ∃ p e, hash_of_siblings ((if flag then w.dropLast else w) ++ [x]) = some (p, e) ∧
      update_next_layer (buildNodes w) p (e || flag)
        = some (buildNodes ((if flag then w.dropLast else w) ++ [x])) := by
  intro n
  induction n with
  | zero =>
    intro w hw x flag hflag
    obtain rfl : w = [] := List.length_eq_zero.mp (Nat.le_zero.mp hw)
    exact update_sim_nil x flag hflag
  | succ n ih =>
    intro w hw x flag hflag
    rcases w with _ | ⟨c, cs⟩
    · exact update_sim_nil x flag hflag
    set w : List T := c :: cs with hwdef
    have hwne : w ≠ [] := by rw [hwdef]; simp
    have hwpos : 0 < w.length := List.length_pos.mpr hwne
    set w' : List T := (if flag then w.dropLast else w) ++ [x] with hwdf
    have hwpne : w' ≠ [] := by rw [hwdf]; simp
    obtain ⟨p, hp, hpl⟩ := hash_of_siblings_of_ne_nil w' hwpne
    refine ⟨p, decide (w'.length % 2 = 0), hp, ?_⟩
    generalize hbdef : (decide (w'.length % 2 = 0) || flag) = b
    have hune : levelUp w ≠ [] := levelUp_ne_nil w hwne
    have hupos : 0 < (levelUp w).length := List.length_pos.mpr hune
    have hkey : levelUp w' = (if b then (levelUp w).dropLast else levelUp w) ++ [p] := by
      cases flag with
      | true =>
        have hwpeq : w' = w.dropLast ++ [x] := by rw [hwdf, if_pos rfl]
        have hb : b = true := by rw [← hbdef]; simp
        rcases Nat.mod_two_eq_zero_or_one w.length with hpar | hpar
        · have hdne : w.dropLast ≠ [] := by
            intro e
            have he : w.dropLast.length = 0 := by rw [e]; rfl
            simp only [List.length_dropLast] at he
            omega
          obtain ⟨a, ha⟩ := Option.isSome_iff_exists.mp (List.getLast?_isSome.mpr hdne)
          have heq := levelUp_overwrite_even w x a hpar ha
          rw [← hwpeq] at heq
          have hpx : p = hash_of a x := by
            rw [heq, List.getLast?_concat] at hpl
            exact (Option.some_injective _ hpl).symm
          rw [hb, if_pos rfl, heq, hpx]
        · have heq := levelUp_overwrite_odd w x hpar
          rw [← hwpeq] at heq
          have hpx : p = hash_of x x := by
            rw [heq, List.getLast?_concat] at hpl
            exact (Option.some_injective _ hpl).symm
          rw [hb, if_pos rfl, heq, hpx]
      | false =>
        have hwpeq : w' = w ++ [x] := by rw [hwdf, if_neg Bool.false_ne_true]
        have hlen : w'.length = w.length + 1 := by rw [hwpeq]; simp
        rcases Nat.mod_two_eq_zero_or_one w.length with hpar | hpar
        · have hb : b = false := by
            rw [← hbdef, hlen]
            simp only [Bool.or_false, decide_eq_false_iff_not]
            omega
          have heq := levelUp_snoc_even w x hpar
          rw [← hwpeq] at heq
          have hpx : p = hash_of x x := by
            rw [heq, List.getLast?_concat] at hpl
            exact (Option.some_injective _ hpl).symm
          rw [hb, if_neg Bool.false_ne_true, heq, hpx]
        · have hb : b = true := by
            rw [← hbdef, hlen]
            simp only [Bool.or_false, decide_eq_true_eq]
            omega
          obtain ⟨bb, hbb⟩ := Option.isSome_iff_exists.mp (List.getLast?_isSome.mpr hwne)
          have heq := levelUp_snoc_odd w x bb hpar hbb
          rw [← hwpeq] at heq
          have hpx : p = hash_of bb x := by
            rw [heq, List.getLast?_concat] at hpl
            exact (Option.some_injective _ hpl).symm
          rw [hb, if_pos rfl, heq, hpx]
    have hlen' : (levelUp w').length
        = (if b then (levelUp w).length else (levelUp w).length + 1) := by
      rw [hkey]
      cases b
      · simp
      · rw [if_pos rfl, if_pos rfl]
        simp only [List.length_append, List.length_dropLast, List.length_cons,
          List.length_nil]
        omega
    have hbn := buildNodes_eq_of_ne_nil w hwne
    by_cases hu1 : (levelUp w).length = 1
    · rw [hbn, if_pos hu1]
      by_cases hu'1 : (levelUp w').length = 1
      · rw [update_next_layer_stop (levelUp w) [] p b (levelUp w') hune hkey.symm hu'1,
          buildNodes_eq_of_ne_nil w' hwpne, if_pos hu'1]
      · have hb : b = false := by
          cases hbv : b
          · rfl
          · exfalso
            rw [hbv, if_pos rfl, hu1] at hlen'
            exact hu'1 hlen'
        have hlen2 : (levelUp w').length = 2 := by
          rw [hlen', hb, if_neg Bool.false_ne_true, hu1]
        have hlu'ne : levelUp w' ≠ [] := levelUp_ne_nil w' hwpne
        obtain ⟨q, hq, hql⟩ := hash_of_siblings_of_ne_nil (levelUp w') hlu'ne
        rw [update_next_layer_go (levelUp w) [] p b (levelUp w') q _ [[q]] hune hkey.symm
          hu'1 hq (update_next_layer_nil q _),
          buildNodes_eq_of_ne_nil w' hwpne, if_neg hu'1,
          buildNodes_eq_of_ne_nil (levelUp w') hlu'ne,
          if_pos (by rw [levelUp_length, hlen2]),
          eq_singleton_of_length_one (by rw [levelUp_length, hlen2]) hql]
    · rw [hbn, if_neg hu1]
      have hge2 : 2 ≤ (levelUp w).length := by omega
      have hwge3 : 3 ≤ w.length := by
        have := levelUp_length w
        omega
      have hun : (levelUp w).length ≤ n := by
        have := levelUp_length w
        have hwn : w.length ≤ n + 1 := hw
        omega
      obtain ⟨p2, e2, hp2, hrec⟩ := ih (levelUp w) hun p b (fun _ => hune)
      rw [← hkey] at hp2 hrec
      have hu'1 : (levelUp w').length ≠ 1 := by
        rw [hlen']
        cases b
        · rw [if_neg Bool.false_ne_true]
          omega
        · rw [if_pos rfl]
          omega
      rw [update_next_layer_go (levelUp w) (buildNodes (levelUp w)) p b (levelUp w') p2 e2
          (buildNodes (levelUp w')) hune hkey.symm hu'1 hp2 hrec,
        buildNodes_eq_of_ne_nil w' hwpne, if_neg hu'1]

/-- `Tree::append` on a tree satisfying the level invariant: the leaves gain
the new element and the stored levels remain `buildNodes` of the leaves. -/
theorem append_sim [Hash T] (l : List T) (x : T) :
    Tree.append ⟨l, buildNodes l⟩ x = some ⟨l ++ [x], buildNodes (l ++ [x])⟩ := by
  obtain ⟨p, e, hp, hup⟩ := update_sim l.length l le_rfl x false (by simp)
  rw [if_neg Bool.false_ne_true] at hp hup
  rw [Bool.or_false] at hup
  simp only [Tree.append, bind, Option.bind]
  rw [hp]
  simp only []
  rw [hup]

/-- Reachability invariant of the full tree: a tree built by appends has
`nodes = buildNodes leaves`, and `treeOf` never panics. -/
theorem treeOf_eq [Hash T] (l : List T) : treeOf l = some ⟨l, buildNodes l⟩ := by
  induction l using List.reverseRecOn with
  | nil => rw [treeOf, List.foldlM_nil, buildNodes_nil]; rfl
  | append_singleton as a ih =>
    have h1 : treeOf (as ++ [a]) = (treeOf as).bind (fun t => Tree.append t a) := by
      rw [treeOf, List.foldlM_append, treeOf]
      simp
    rw [h1, ih, Option.some_bind]
    exact append_sim as a

/-- The root value as a function of the leaves: last entry of the last
stored level. -/
def rootOf [Hash T] (l : List T) : Option T :=
  (buildNodes l).getLast?.bind List.getLast?

/-- Adjacent levels of the stored structure: each is `levelUp` of the one
below (position 0 is the leaves). -/
theorem levels_getD [Hash T] : ∀ (n : Nat) (l : List T), l.length ≤ n → l ≠ [] →
    ∀ k, k + 1 < (l :: buildNodes l).length →
    (l :: buildNodes l).getD (k + 1) [] = levelUp ((l :: buildNodes l).getD k []) := by
  intro n
  induction n with
  | zero =>
    intro l hl hne
    obtain rfl : l = [] := List.length_eq_zero.mp (Nat.le_zero.mp hl)
    exact absurd rfl hne
  | succ n ih =>
    intro l hl hne k hk
    rw [buildNodes_eq_of_ne_nil l hne] at hk ⊢
    by_cases h1 : (levelUp l).length = 1
    · rw [if_pos h1] at hk ⊢
      obtain rfl : k = 0 := by
        simp only [List.length_cons, List.length_singleton, List.length_nil] at hk
        omega
      simp
    · rw [if_neg h1] at hk ⊢
      cases k with
      | zero => simp
      | succ k =>
        have hune : levelUp l ≠ [] := levelUp_ne_nil l hne
        have hge3 : 3 ≤ l.length := by
          have hlu := levelUp_length l
          have hpos : 0 < l.length := List.length_pos.mpr hne
          rcases Nat.lt_or_ge l.length 3 with hc | hc
          · exfalso; apply h1; omega
          · exact hc
        have hlen : (levelUp l).length ≤ n := by
          have hlu := levelUp_length l
          omega
        have hk' : k + 1 < (levelUp l :: buildNodes (levelUp l)).length := by
          simp only [List.length_cons] at hk ⊢
          omega
        have := ih (levelUp l) hlen hune k hk'
        simpa using this

theorem levelUp_get?_pair [Hash T] : ∀ (l : List T) (p : Nat) (a b : T),
    l.get? (2 * p) = some a → l.get? (2 * p + 1) = some b →
    (levelUp l).get? p = some (hash_of a b)
  | [], _, _, _, ha, _ => by simp at ha
  | [x], p, a, b, _, hb => by
    rcases p with _ | p <;> simp at hb
  | x :: y :: rest, p, a, b, ha, hb => by
    cases p with
    | zero =>
      simp only [Nat.mul_zero, List.get?_cons_zero, Option.some.injEq,
        Nat.zero_add, List.get?_cons_succ] at ha hb
      subst ha; subst hb
      simp [levelUp]
    | succ p =>
      have h2 : 2 * (p + 1) = 2 * p + 1 + 1 := by ring
      rw [h2, List.get?_cons_succ, List.get?_cons_succ] at ha
      rw [h2, List.get?_cons_succ, List.get?_cons_succ] at hb
      have := levelUp_get?_pair rest p a b ha hb
      simpa [levelUp] using this

theorem levelUp_get?_last [Hash T] : ∀ (l : List T) (p : Nat) (a : T),
    l.get? (2 * p) = some a → l.length = 2 * p + 1 →
    (levelUp l).get? p = some (hash_of a a)
  | [], _, _, _, hl => by simp at hl
  | [x], p, a, ha, hl => by
    obtain rfl : p = 0 := by simp at hl; omega
    simp only [Nat.mul_zero, List.get?_cons_zero, Option.some.injEq] at ha
    subst ha
    simp [levelUp]
  | x :: y :: rest, p, a, ha, hl => by
    cases p with
    | zero => simp at hl
    | succ p =>
      have h2 : 2 * (p + 1) = 2 * p + 1 + 1 := by ring
      rw [h2, List.get?_cons_succ, List.get?_cons_succ] at ha
      have hl' : rest.length = 2 * p + 1 := by
        simp only [List.length_cons] at hl
        omega
      have := levelUp_get?_last rest p a ha hl'
      simpa [levelUp] using this

/-- The last stored level always has exactly one entry (the root). -/
theorem buildNodes_getLast [Hash T] : ∀ (n : Nat) (l : List T), l.length ≤ n → l ≠ [] →
    ∃ top, (buildNodes l).getLast? = some top ∧ top.length = 1 := by
  intro n
  induction n with
  | zero =>
    intro l hl hne
    obtain rfl : l = [] := List.length_eq_zero.mp (Nat.le_zero.mp hl)
    exact absurd rfl hne
  | succ n ih =>
    intro l hl hne
    rw [buildNodes_eq_of_ne_nil l hne]
    by_cases h1 : (levelUp l).length = 1
    · rw [if_pos h1]
      exact ⟨levelUp l, by simp, h1⟩
    · rw [if_neg h1]
      have hune : levelUp l ≠ [] := levelUp_ne_nil l hne
      have hge3 : 3 ≤ l.length := by
        have hlu := levelUp_length l
        have hpos : 0 < l.length := List.length_pos.mpr hne
        rcases Nat.lt_or_ge l.length 3 with hc | hc
        · exfalso; apply h1; omega
        · exact hc
      have hlen : (levelUp l).length ≤ n := by
        have hlu := levelUp_length l
        omega
      obtain ⟨top, htop, hlen1⟩ := ih (levelUp l) hlen hune
      refine ⟨top, ?_, hlen1⟩
      rcases hbn : buildNodes (levelUp l) with _ | ⟨c, cs⟩
      · exact absurd hbn (buildNodes_ne_nil _ hune)
      · rw [hbn] at htop
        rw [List.getLast?_cons_cons]
        exact htop

/-- Recursive form of the root value. -/
theorem rootOf_eq [Hash T] (l : List T) (hne : l ≠ []) :
    rootOf l = if (levelUp l).length = 1
      then (levelUp l).getLast?
      else rootOf (levelUp l) := by
  rw [rootOf, buildNodes_eq_of_ne_nil l hne]
  by_cases h1 : (levelUp l).length = 1
  · rw [if_pos h1, if_pos h1]
    simp
  · rw [if_neg h1, if_neg h1]
    have hune : levelUp l ≠ [] := levelUp_ne_nil l hne
    rcases hbn : buildNodes (levelUp l) with _ | ⟨c, cs⟩
    · exact absurd hbn (buildNodes_ne_nil _ hune)
    · rw [List.getLast?_cons_cons, rootOf, hbn]

theorem proof_node_even_some (l : List T) (i : Nat) (x : T) (h : i % 2 = 0)
    (hg : l.get? (i + 1) = some x) :
    proof_node_with_sibling l i = some (ProofNode.RightSiblign x) := by
  rw [List.get?_eq_getElem?] at hg
  simp [proof_node_with_sibling, h, hg]

theorem proof_node_even_none (l : List T) (i : Nat) (h : i % 2 = 0)
    (hg : l.get? (i + 1) = none) :
    proof_node_with_sibling l i = some ProofNode.None := by
  rw [List.get?_eq_getElem?] at hg
  simp [proof_node_with_sibling, h, hg]

theorem proof_node_odd_some (l : List T) (i : Nat) (x : T) (h : i % 2 = 1)
    (hg : l.get? (i - 1) = some x) :
    proof_node_with_sibling l i = some (ProofNode.LeftSibling x) := by
  have h1 : 1 ≤ i := by omega
  rw [List.get?_eq_getElem?] at hg
  simp [proof_node_with_sibling, h, checkedSub, h1, hg]

theorem proof_node_odd_none (l : List T) (i : Nat) (h : i % 2 = 1)
    (hg : l.get? (i - 1) = none) :
    proof_node_with_sibling l i = some ProofNode.None := by
  have h1 : 1 ≤ i := by omega
  rw [List.get?_eq_getElem?] at hg
  simp [proof_node_with_sibling, h, checkedSub, h1, hg]

/-- `proof_node_with_sibling` never panics: the `index - 1` underflow is
guarded by the oddness test. -/
theorem proof_node_total (l : List T) (i : Nat) :
    ∃ pn, proof_node_with_sibling l i = some pn := by
  rcases Nat.mod_two_eq_zero_or_one i with h | h
  · rcases hg : l.get? (i + 1) with _ | x
    · exact ⟨_, proof_node_even_none l i h hg⟩
    · exact ⟨_, proof_node_even_some l i x h hg⟩
  · rcases hg : l.get? (i - 1) with _ | x
    · exact ⟨_, proof_node_odd_none l i h hg⟩
    · exact ⟨_, proof_node_odd_some l i x h hg⟩

theorem proofLoop_total : ∀ (layers : List (List T)) (i : Nat),
    ∃ pns, proofLoop layers i = some pns
  | [], _ => ⟨[], rfl⟩
  | layer :: rest, i => by
    by_cases h1 : layer.length = 1
    · exact ⟨[], by simp [proofLoop, h1]⟩
    · obtain ⟨pn, hpn⟩ := proof_node_total layer (i / 2)
      obtain ⟨tail, htail⟩ := proofLoop_total rest (i / 2)
      exact ⟨pn :: tail, by simp [proofLoop, h1, hpn, htail]⟩

theorem proofLoop_stop (layer : List T) (rest : List (List T)) (i : Nat)
    (h1 : layer.length = 1) : proofLoop (layer :: rest) i = some [] := by
  simp [proofLoop, h1]

theorem proofLoop_go (layer : List T) (rest : List (List T)) (i : Nat)
    (h1 : layer.length ≠ 1) (pn : ProofNode T) (tail : List (ProofNode T))
    (hpn : proof_node_with_sibling layer (i / 2) = some pn)
    (htail : proofLoop rest (i / 2) = some tail) :
    proofLoop (layer :: rest) i = some (pn :: tail) := by
  simp [proofLoop, h1, hpn, htail]

/-- One level of proof emission folds correctly: the sibling entry for
position `i`, folded into the value at position `i`, is the value at
position `i / 2` of the level above. -/
theorem proof_step_level [Hash T] (w : List T) (i : Nat) (a : T)
    (ha : w.get? i = some a) :
    ∃ d, proof_node_with_sibling w i = some d ∧
      (levelUp w).get? (i / 2) = some (proofStep a d) := by
  have hi : i < w.length := List.get?_eq_some.mp ha |>.1
  rcases Nat.mod_two_eq_zero_or_one i with h | h
  · have h2 : 2 * (i / 2) = i := by omega
    rcases hg : w.get? (i + 1) with _ | b
    · refine ⟨ProofNode.None, proof_node_even_none w i h hg, ?_⟩
      have hlen : w.length = 2 * (i / 2) + 1 := by
        have := List.get?_eq_none.mp hg
        omega
      have := levelUp_get?_last w (i / 2) a (by rw [h2]; exact ha) hlen
      simpa [proofStep] using this
    · refine ⟨ProofNode.RightSiblign b, proof_node_even_some w i b h hg, ?_⟩
      have := levelUp_get?_pair w (i / 2) a b (by rw [h2]; exact ha)
        (by rw [Nat.add_comm (2 * (i / 2)) 1, Nat.add_comm i 1] at *; rw [h2]; exact hg)
      simpa [proofStep] using this
  · have h2 : 2 * (i / 2) = i - 1 := by omega
    rcases hg : w.get? (i - 1) with _ | b
    · exfalso
      have := List.get?_eq_none.mp hg
      omega
    · refine ⟨ProofNode.LeftSibling b, proof_node_odd_some w i b h hg, ?_⟩
      have h3 : 2 * (i / 2) + 1 = i := by omega
      have := levelUp_get?_pair w (i / 2) b a (by rw [h2]; exact hg)
        (by rw [h3]; exact ha)
      simpa [proofStep] using this

/-- The emitted proof chain folds from any leaf to the root. -/
theorem proof_fold [Hash T] : ∀ (n : Nat) (w : List T), w.length ≤ n →
    ∀ (i : Nat) (a : T), w.get? i = some a →
    ∃ d tail r,
      proof_node_with_sibling w i = some d ∧
      proofLoop (buildNodes w) i = some tail ∧
      rootOf w = some r ∧
      (d :: tail).foldl proofStep a = r := by
  intro n
  induction n with
  | zero =>
    intro w hw i a ha
    obtain rfl : w = [] := List.length_eq_zero.mp (Nat.le_zero.mp hw)
    simp at ha
  | succ n ih =>
    intro w hw i a ha
    have hne : w ≠ [] := by
      intro e; subst e; simp at ha
    have hi : i < w.length := List.get?_eq_some.mp ha |>.1
    obtain ⟨d, hd, hstep⟩ := proof_step_level w i a ha
    rw [buildNodes_eq_of_ne_nil w hne]
    by_cases h1 : (levelUp w).length = 1
    · rw [if_pos h1]
      obtain ⟨z, hz⟩ := List.length_eq_one.mp h1
      have hiz : i / 2 = 0 := by
        have := List.get?_eq_some.mp hstep |>.1
        omega
      refine ⟨d, [], proofStep a d, hd, proofLoop_stop _ _ _ h1, ?_, by simp⟩
      rw [rootOf_eq w hne, if_pos h1, hz]
      rw [hz, hiz] at hstep
      simp only [List.get?_cons_zero, Option.some.injEq] at hstep
      simp [hstep]
    · rw [if_neg h1]
      have hge3 : 3 ≤ w.length := by
        have hlu := levelUp_length w
        have hpos : 0 < w.length := List.length_pos.mpr hne
        rcases Nat.lt_or_ge w.length 3 with hc | hc
        · exfalso; apply h1; omega
        · exact hc
      have hlen : (levelUp w).length ≤ n := by
        have hlu := levelUp_length w
        omega
      obtain ⟨d2, tail2, r, hd2, htail2, hr, hfold⟩ :=
        ih (levelUp w) hlen (i / 2) (proofStep a d) hstep
      refine ⟨d, d2 :: tail2, r, hd, proofLoop_go _ _ _ h1 d2 tail2 hd2 htail2, ?_, ?_⟩
      · rw [rootOf_eq w hne, if_neg h1]
        exact hr
      · simpa using hfold

theorem update_next_layer_overwrite_nil [Hash T] (rest : List (List T)) (x : T) :
    update_next_layer (([] : List T) :: rest) x true = none := by
  simp [update_next_layer]

theorem update_next_layer_go_none [Hash T] (hl : List T) (rest : List (List T)) (x : T)
    (b : Bool) (q : T) (e2 : Bool)
    (hne : hl ≠ [])
    (h1 : ((if b then hl.dropLast else hl) ++ [x]).length ≠ 1)
    (hq : hash_of_siblings ((if b then hl.dropLast else hl) ++ [x]) = some (q, e2))
    (hrec : update_next_layer rest q (e2 || b) = none) :
    update_next_layer (hl :: rest) x b = none := by
  obtain ⟨c, cs, rfl⟩ : ∃ c cs, hl = c :: cs := by
    cases hl with
    | nil => exact absurd rfl hne
    | cons c cs => exact ⟨c, cs, rfl⟩
  cases b with
  | true =>
    rw [if_pos rfl] at h1 hq
    rw [Bool.or_true] at hrec
    simp only [update_next_layer, if_true, bind, Option.bind, beq_iff_eq]
    rw [if_neg h1, hq]
    simp only [Bool.or_true]
    rw [hrec]
  | false =>
    rw [if_neg Bool.false_ne_true] at h1 hq
    rw [Bool.or_false] at hrec
    simp only [update_next_layer, Bool.false_eq_true, if_false, bind, Option.bind, beq_iff_eq]
    rw [if_neg h1, hq]
    simp only [Bool.or_false]
    rw [hrec]

/-- Inversion of one successful `update_next_layer` step whose updated level
keeps length over 1: the parent of the updated level's last siblings is
computed and the recursion on the remaining levels succeeded. -/
theorem update_next_layer_inv [Hash T] (hl : List T) (rest : List (List T)) (x : T)
    (b : Bool) (out : List (List T))
    (hrun : update_next_layer (hl :: rest) x b = some out) :
    hl ≠ [] ∨ b = false := by
  by_cases hne : hl = []
  · right
    cases hb : b with
    | true =>
      rw [hne, hb, update_next_layer_overwrite_nil] at hrun
      exact absurd hrun (by simp)
    | false => rfl
  · left; exact hne

theorem update_next_layer_inv_go [Hash T] (hl : List T) (rest : List (List T)) (x : T)
    (b : Bool) (out : List (List T))
    (hrun : update_next_layer (hl :: rest) x b = some out)
    (hne : hl ≠ [])
    (h1 : ((if b then hl.dropLast else hl) ++ [x]).length ≠ 1) :
    ∃ p e rest', hash_of_siblings ((if b then hl.dropLast else hl) ++ [x]) = some (p, e) ∧
      update_next_layer rest p (e || b) = some rest' ∧
      out = ((if b then hl.dropLast else hl) ++ [x]) :: rest' ∧
      e = decide ((((if b then hl.dropLast else hl) ++ [x]).length % 2 = 0)) := by
  obtain ⟨p, hp, hpl⟩ := hash_of_siblings_of_ne_nil ((if b then hl.dropLast else hl) ++ [x])
    (by simp)
  rcases hrec : update_next_layer rest p
      (decide ((((if b then hl.dropLast else hl) ++ [x]).length % 2 = 0)) || b)
    with _ | rest'
  · rw [update_next_layer_go_none hl rest x b p _ hne h1 hp hrec] at hrun
    exact absurd hrun (by simp)
  · rw [update_next_layer_go hl rest x b _ p _ rest' hne rfl h1 hp hrec] at hrun
    refine ⟨p, _, rest', hp, hrec, ?_, rfl⟩
    exact (Option.some_injective _ hrun).symm

theorem update_next_layer_push_nil [Hash T] (rest : List (List T)) (x : T) :
    update_next_layer (([] : List T) :: rest) x false = some ([x] :: rest) := by
  simp [update_next_layer]

/-- Inversion of one successful `update_next_layer` step: the head of the
output is the updated first level (overwritten last entry when the sticky
flag is set, pushed otherwise). -/
theorem update_next_layer_head [Hash T] (hl : List T) (rest : List (List T)) (x : T)
    (b : Bool) (out : List (List T))
    (hrun : update_next_layer (hl :: rest) x b = some out)
    (hne : b = true → hl ≠ []) :
    ∃ out1, out = ((if b then hl.dropLast else hl) ++ [x]) :: out1 := by
  by_cases hnil : hl = []
  · have hb : b = false := by
      cases hbv : b
      · rfl
      · exact absurd hnil (hne hbv)
    subst hnil
    rw [hb, update_next_layer_push_nil] at hrun
    rw [hb]
    refine ⟨rest, ?_⟩
    have hout := (Option.some_injective _ hrun).symm
    simpa using hout
  · by_cases h1 : ((if b then hl.dropLast else hl) ++ [x]).length = 1
    · rw [update_next_layer_stop hl rest x b _ hnil rfl h1] at hrun
      exact ⟨rest, (Option.some_injective _ hrun).symm⟩
    · obtain ⟨p, e, rest', _, _, hout, _⟩ :=
        update_next_layer_inv_go hl rest x b out hrun hnil h1
      exact ⟨rest', hout⟩

/-- Mirrors the Rust test `test_root_of_single_item`. -/
theorem test_root_of_single_item :
    (treeOf [1]).map Tree.root = some (some 2) := by decide

/-- Mirrors the Rust test `test_root_of_two_items`. -/
theorem test_root_of_two_items :
    (treeOf [1, 2]).map Tree.root = some (some 3) := by decide

/-- Mirrors the Rust test `test_root_of_multiple_items`. -/
theorem test_root_of_multiple_items :
    (treeOf [1, 20, 300, 4000, 50000]).map Tree.root = some (some 204321) := by decide

/-- Mirrors the Rust test `test_power_of_two_tree`. -/
theorem test_power_of_two_tree :
    (treeOf [1, 20, 300, 4000, 50000, 600000, 7000000, 80000000]).map Tree.root
      = some (some 87654321) := by decide

/-- Mirrors the Rust test `test_generated_proof`. -/
theorem test_generated_proof :
    (treeOf [10, 200]).map (fun t => t.proof_for 1)
      = some (some (some ⟨[ProofNode.LeftSibling 10]⟩)) := by decide

/-- Mirrors the Rust test `test_proof_verification`. -/
theorem test_proof_verification :
    (treeOf [1, 20, 300, 4000, 50000, 600000, 7000000, 80000000]).map
        (fun t =>
          match t.proof_for 4, t.root with
          | some (some p), some r => p.verify r 50000
          | _, _ => false)
      = some true := by decide

/-- Mirrors the Rust test `test_lightweight_tree_proof` at its first few
iterations: the two trees agree on the root after every prefix. -/
theorem test_lightweight_tree_roots :
    ((List.range 9).map (fun n =>
      ((treeOf ((List.range n).map Nat.succ)).map Tree.root,
       (lightOf ((List.range n).map Nat.succ)).map LightTree.root))).all
        (fun p => p.1 == p.2) = true := by decide

theorem buildNodes_singleton [Hash T] (h : T) : buildNodes [h] = [[hash_of h h]] := by
  rw [buildNodes_eq_of_ne_nil [h] (by simp)]
  simp [levelUp]

/-!
Light-tree invariant.  After appending `n` leaves, the frontier holds one
node per level that has a level above it; the node for level `k` (counting
the leaves as level 0) has `hash` equal to the last entry of level `k + 1`,
and a state tag determined by the parity of level `k`'s length and by
whether the subtree under level `k`'s last position is saturated
(`sat = (n % 2^k == 0)`, threaded as a Bool up the levels:
`sat_0 = true`, `sat_{k+1} = sat_k && (len_k even)`).  A `PartialLeft`
payload is never read by the code, so it is existentially quantified.
-/

/-- Invariant of a single frontier node against the level `w` below it. -/
def nodeInv [Hash T] (w : List T) (sat : Bool) (nd : LightNode T) : Prop :=
  if w.length % 2 = 0 then
    ∃ a b, w.dropLast.getLast? = some a ∧ w.getLast? = some b ∧
      nd.hash = hash_of a b ∧
      nd.state = (if sat then NodeState.Full else NodeState.PartialRight a)
  else
    ∃ b, w.getLast? = some b ∧ nd.hash = hash_of b b ∧
      (if sat then nd.state = NodeState.PartialRight b
       else ∃ j, nd.state = NodeState.PartialLeft j)

/-- Frontier invariant: one node per level with a level above; the chain
stops at the level below the root level, i.e. when `levelUp` of the current
level is a singleton (`w.length ≤ 2`). -/
def frontierInv [Hash T] : List T → Bool → List (LightNode T) → Prop
  | [], _, ns => ns = []
  | [a], sat, ns => ∃ nd, ns = [nd] ∧ nodeInv [a] sat nd
  | [a, b], sat, ns => ∃ nd, ns = [nd] ∧ nodeInv [a, b] sat nd
  | a :: b :: c :: w, sat, ns =>
    ∃ nd rest, ns = nd :: rest ∧ nodeInv (a :: b :: c :: w) sat nd ∧
      frontierInv (levelUp (a :: b :: c :: w))
        (sat && decide ((a :: b :: c :: w).length % 2 = 0)) rest
termination_by w _ _ => w.length
decreasing_by
  simp only [levelUp_length, List.length_cons]
  omega

/-- Frontier invariant after the topmost-node maintenance step: identical,
except that a saturated top (its node `Full`) carries the freshly pushed
`PartialRight` copy above it. -/
def frontierInvX [Hash T] : List T → Bool → List (LightNode T) → Prop
  | [], _, ns => ns = []
  | [a], sat, ns => ∃ nd, ns = [nd] ∧ nodeInv [a] sat nd
  | [a, b], sat, ns =>
    ∃ nd, nodeInv [a, b] sat nd ∧
      (if sat then ns = [nd, ⟨nd.hash, NodeState.PartialRight nd.hash⟩]
       else ns = [nd])
  | a :: b :: c :: w, sat, ns =>
    ∃ nd rest, ns = nd :: rest ∧ nodeInv (a :: b :: c :: w) sat nd ∧
      frontierInvX (levelUp (a :: b :: c :: w))
        (sat && decide ((a :: b :: c :: w).length % 2 = 0)) rest
termination_by w _ _ => w.length
decreasing_by
  simp only [levelUp_length, List.length_cons]
  omega

theorem frontierInv_nil [Hash T] (sat : Bool) (ns : List (LightNode T)) :
    frontierInv ([] : List T) sat ns ↔ ns = [] := by
  simp only [frontierInv]

theorem frontierInv_stop [Hash T] (w : List T) (hne : w ≠ []) (hlen : w.length ≤ 2)
    (sat : Bool) (ns : List (LightNode T)) :
    frontierInv w sat ns ↔ ∃ nd, ns = [nd] ∧ nodeInv w sat nd := by
  rcases w with _ | ⟨a, _ | ⟨b, _ | ⟨c, w⟩⟩⟩
  · exact absurd rfl hne
  · simp only [frontierInv]
  · simp only [frontierInv]
  · simp at hlen

theorem frontierInv_go [Hash T] (w : List T) (hlen : 3 ≤ w.length)
    (sat : Bool) (ns : List (LightNode T)) :
    frontierInv w sat ns ↔
      ∃ nd rest, ns = nd :: rest ∧ nodeInv w sat nd ∧
        frontierInv (levelUp w) (sat && decide (w.length % 2 = 0)) rest := by
  rcases w with _ | ⟨a, _ | ⟨b, _ | ⟨c, w⟩⟩⟩ <;> simp at hlen
  simp only [frontierInv]

theorem frontierInvX_nil [Hash T] (sat : Bool) (ns : List (LightNode T)) :
    frontierInvX ([] : List T) sat ns ↔ ns = [] := by
  simp only [frontierInvX]

theorem frontierInvX_one [Hash T] (a : T) (sat : Bool) (ns : List (LightNode T)) :
    frontierInvX [a] sat ns ↔ ∃ nd, ns = [nd] ∧ nodeInv [a] sat nd := by
  simp only [frontierInvX]

theorem frontierInvX_two [Hash T] (a b : T) (sat : Bool) (ns : List (LightNode T)) :
    frontierInvX [a, b] sat ns ↔
      ∃ nd, nodeInv [a, b] sat nd ∧
        (if sat then ns = [nd, ⟨nd.hash, NodeState.PartialRight nd.hash⟩]
         else ns = [nd]) := by
  simp only [frontierInvX]

theorem frontierInvX_go [Hash T] (w : List T) (hlen : 3 ≤ w.length)
    (sat : Bool) (ns : List (LightNode T)) :
    frontierInvX w sat ns ↔
      ∃ nd rest, ns = nd :: rest ∧ nodeInv w sat nd ∧
        frontierInvX (levelUp w) (sat && decide (w.length % 2 = 0)) rest := by
  rcases w with _ | ⟨a, _ | ⟨b, _ | ⟨c, w⟩⟩⟩ <;> simp at hlen
  simp only [frontierInvX]

/-- The state tag of a frontier node is `Full` exactly when its level is
saturated and of even length. -/
theorem nodeInv_isFull [Hash T] (w : List T) (sat : Bool) (nd : LightNode T)
    (h : nodeInv w sat nd) :
    nd.state.isFull = (sat && decide (w.length % 2 = 0)) := by
  rw [nodeInv] at h
  by_cases hpar : w.length % 2 = 0
  · rw [if_pos hpar] at h
    obtain ⟨a, b, _, _, _, hst⟩ := h
    rw [hst]
    cases sat <;> simp [NodeState.isFull, hpar]
  · rw [if_neg hpar] at h
    obtain ⟨b, _, _, hst⟩ := h
    cases hsat : sat with
    | true =>
      rw [hsat, if_pos rfl] at hst
      rw [hst]
      simp [NodeState.isFull, hpar]
    | false =>
      rw [hsat, if_neg Bool.false_ne_true] at hst
      obtain ⟨j, hst⟩ := hst
      rw [hst]
      simp [NodeState.isFull, hpar]

/-- The hash of a frontier node is the last entry of the level above. -/
theorem nodeInv_hash [Hash T] (w : List T) (sat : Bool) (nd : LightNode T)
    (h : nodeInv w sat nd) :
    (levelUp w).getLast? = some nd.hash := by
  rw [nodeInv] at h
  by_cases hpar : w.length % 2 = 0
  · rw [if_pos hpar] at h
    obtain ⟨a, b, ha, hb, hh, _⟩ := h
    rw [hh]
    exact levelUp_getLast_even w a b hpar ha hb
  · rw [if_neg hpar] at h
    obtain ⟨b, hb, hh, _⟩ := h
    rw [hh]
    exact levelUp_getLast_odd w b (by omega) hb

theorem frontierInv_ne_nil [Hash T] (w : List T) (hne : w ≠ []) (sat : Bool)
    (ns : List (LightNode T)) (h : frontierInv w sat ns) : ns ≠ [] := by
  rcases le_or_lt w.length 2 with hl | hl
  · obtain ⟨nd, rfl, _⟩ := (frontierInv_stop w hne hl sat ns).mp h
    simp
  · obtain ⟨nd, rest, rfl, _, _⟩ := (frontierInv_go w (by omega) sat ns).mp h
    simp

theorem pushStep_cons (nd : LightNode T) (rest : List (LightNode T)) (hne : rest ≠ []) :
    pushStep (nd :: rest) = nd :: pushStep rest := by
  obtain ⟨r, rs, rfl⟩ : ∃ r rs, rest = r :: rs := by
    cases rest with
    | nil => exact absurd rfl hne
    | cons r rs => exact ⟨r, rs, rfl⟩
  rw [pushStep, pushStep, List.getLast?_cons_cons]
  rcases hg : (r :: rs).getLast? with _ | last
  · simp at hg
  · by_cases hf : last.state.isFull <;> simp [hf]

/-- The topmost-node maintenance step turns the plain frontier invariant
into the extended one. -/
theorem pushStep_inv [Hash T] : ∀ (n : Nat) (w : List T), w.length ≤ n → w ≠ [] →
    ∀ (sat : Bool) (ns : List (LightNode T)),
    frontierInv w sat ns → frontierInvX w sat (pushStep ns) := by
  intro n
  induction n with
  | zero =>
    intro w hw hne
    obtain rfl : w = [] := List.length_eq_zero.mp (Nat.le_zero.mp hw)
    exact absurd rfl hne
  | succ n ih =>
    intro w hw hne sat ns hinv
    rcases le_or_lt w.length 2 with hl | hl
    · obtain ⟨nd, rfl, hnd⟩ := (frontierInv_stop w hne hl sat ns).mp hinv
      have hfull := nodeInv_isFull w sat nd hnd
      have hps : pushStep [nd] =
          (if nd.state.isFull then [nd, ⟨nd.hash, NodeState.PartialRight nd.hash⟩]
           else [nd]) := by
        rw [pushStep]
        simp only [List.getLast?_singleton]
        by_cases hf : nd.state.isFull
        · rw [if_pos hf, if_pos hf]
          rfl
        · rw [if_neg hf, if_neg hf]
      rcases w with _ | ⟨a, _ | ⟨b, _ | ⟨c, w⟩⟩⟩
      · exact absurd rfl hne
      · rw [frontierInvX_one]
        refine ⟨nd, ?_, hnd⟩
        rw [hps, hfull]
        simp
      · rw [frontierInvX_two]
        refine ⟨nd, hnd, ?_⟩
        rw [hps, hfull]
        cases sat <;> simp
      · simp at hl
    · obtain ⟨nd, rest, rfl, hnd, hrest⟩ := (frontierInv_go w (by omega) sat ns).mp hinv
      have hune : levelUp w ≠ [] := levelUp_ne_nil w hne
      have hrne : rest ≠ [] := frontierInv_ne_nil (levelUp w) hune _ rest hrest
      rw [pushStep_cons nd rest hrne, frontierInvX_go w (by omega)]
      refine ⟨nd, pushStep rest, rfl, hnd, ?_⟩
      have hlen : (levelUp w).length ≤ n := by
        have := levelUp_length w
        omega
      exact ih (levelUp w) hlen hune _ rest hrest

/-- One step of the frontier walk: a node satisfying the invariant for its
level `w` is rewritten by `new_node` into the node for the updated level
(`w ++ [x]` when saturated — the new element opens a fresh rightmost
subtree — else an overwrite of `w`'s last entry), the element always counts
as stored afterwards, and the node's new hash is the freshly computed last
entry of the level above. -/
theorem node_step [Hash T] (w : List T) (x : T) (sat sat' stored : Bool)
    (nd : LightNode T) (hne : w ≠ [])
    (hst0 : stored = false → sat = true ∧ sat' = true)
    (hst1 : stored = true → ¬(sat = true ∧ sat' = true))
    (hinv : nodeInv w sat nd) :
    ∃ nd', nd.new_node x stored (stored && sat') = some (nd', true) ∧
      nodeInv ((if sat then w else w.dropLast) ++ [x]) sat' nd' ∧
      levelUp ((if sat then w else w.dropLast) ++ [x])
        = (if (sat && decide (w.length % 2 = 0)) then levelUp w
           else (levelUp w).dropLast) ++ [nd'.hash] := by
  have hpos : 0 < w.length := List.length_pos.mpr hne
  rw [nodeInv] at hinv
  cases stored with
  | false =>
    obtain ⟨rfl, rfl⟩ := hst0 rfl
    by_cases hpar : w.length % 2 = 0
    · rw [if_pos hpar] at hinv
      obtain ⟨a, b, ha, hb, hh, hst⟩ := hinv
      rw [if_pos rfl] at hst
      refine ⟨⟨hash_of x x, NodeState.PartialRight x⟩, ?_, ?_, ?_⟩
      · simp [LightNode.new_node, hst]
      · rw [if_pos rfl, nodeInv,
          if_neg (by simp only [List.length_append, List.length_singleton]; omega)]
        exact ⟨x, List.getLast?_concat _, rfl, by rw [if_pos rfl]⟩
      · rw [if_pos rfl, if_pos (by simp [hpar])]
        exact levelUp_snoc_even w x hpar
    · rw [if_neg hpar] at hinv
      obtain ⟨b, hb, hh, hst⟩ := hinv
      rw [if_pos rfl] at hst
      refine ⟨⟨hash_of b x, NodeState.Full⟩, ?_, ?_, ?_⟩
      · simp [LightNode.new_node, hst]
      · rw [if_pos rfl, nodeInv,
          if_pos (by simp only [List.length_append, List.length_singleton]; omega)]
        refine ⟨b, x, ?_, List.getLast?_concat _, rfl, by rw [if_pos rfl]⟩
        rw [List.dropLast_concat]
        exact hb
      · rw [if_pos rfl, if_neg (by simp [hpar])]
        exact levelUp_snoc_odd w x b (by omega) hb
  | true =>
    cases sat with
    | true =>
      have hsat' : sat' = false := by
        cases hsv : sat'
        · rfl
        · exact absurd ⟨rfl, hsv⟩ (hst1 rfl)
      subst hsat'
      by_cases hpar : w.length % 2 = 0
      · rw [if_pos hpar] at hinv
        obtain ⟨a, b, ha, hb, hh, hst⟩ := hinv
        rw [if_pos rfl] at hst
        refine ⟨⟨hash_of x x, NodeState.PartialLeft x⟩, ?_, ?_, ?_⟩
        · simp [LightNode.new_node, hst]
        · rw [if_pos rfl, nodeInv,
            if_neg (by simp only [List.length_append, List.length_singleton]; omega)]
          exact ⟨x, List.getLast?_concat _, rfl,
            by rw [if_neg Bool.false_ne_true]; exact ⟨x, rfl⟩⟩
        · rw [if_pos rfl, if_pos (by simp [hpar])]
          exact levelUp_snoc_even w x hpar
      · rw [if_neg hpar] at hinv
        obtain ⟨b, hb, hh, hst⟩ := hinv
        rw [if_pos rfl] at hst
        refine ⟨⟨hash_of b x, NodeState.PartialRight b⟩, ?_, ?_, ?_⟩
        · simp [LightNode.new_node, hst]
        · rw [if_pos rfl, nodeInv,
            if_pos (by simp only [List.length_append, List.length_singleton]; omega)]
          refine ⟨b, x, ?_, List.getLast?_concat _, rfl,
            by rw [if_neg Bool.false_ne_true]⟩
          rw [List.dropLast_concat]
          exact hb
        · rw [if_pos rfl, if_neg (by simp [hpar])]
          exact levelUp_snoc_odd w x b (by omega) hb
    | false =>
      by_cases hpar : w.length % 2 = 0
      · rw [if_pos hpar] at hinv
        obtain ⟨a, b, ha, hb, hh, hst⟩ := hinv
        rw [if_neg Bool.false_ne_true] at hst
        refine ⟨⟨hash_of a x, if sat' then NodeState.Full else NodeState.PartialRight a⟩,
          ?_, ?_, ?_⟩
        · simp [LightNode.new_node, hst]
        · rw [if_neg Bool.false_ne_true, nodeInv,
            if_pos (by simp only [List.length_append, List.length_singleton,
              List.length_dropLast]; omega)]
          refine ⟨a, x, ?_, List.getLast?_concat _, rfl, rfl⟩
          rw [List.dropLast_concat]
          exact ha
        · rw [if_neg Bool.false_ne_true, if_neg (by simp)]
          exact levelUp_overwrite_even w x a hpar ha
      · rw [if_neg hpar] at hinv
        obtain ⟨b, hb, hh, hst⟩ := hinv
        rw [if_neg Bool.false_ne_true] at hst
        obtain ⟨j, hst⟩ := hst
        refine ⟨⟨hash_of x x, if sat' then NodeState.PartialRight x else NodeState.PartialLeft j⟩,
          ?_, ?_, ?_⟩
        · simp [LightNode.new_node, hst]
        · rw [if_neg Bool.false_ne_true, nodeInv,
            if_neg (by simp only [List.length_append, List.length_singleton,
              List.length_dropLast]; omega)]
          refine ⟨x, List.getLast?_concat _, rfl, ?_⟩
          cases hsv : sat'
          · rw [if_neg Bool.false_ne_true]
            exact ⟨j, by rw [if_neg Bool.false_ne_true]⟩
          · rw [if_pos rfl]
            rw [if_pos rfl]
        · rw [if_neg Bool.false_ne_true, if_neg (by simp)]
          exact levelUp_overwrite_odd w x (by omega)

/-- Simulation of the whole frontier walk above a given level: walking the
extended frontier for level `w` (after the topmost-node maintenance step,
with the element already stored below when `stored`) produces exactly the
frontier of the updated tree. -/
theorem walk_sim [Hash T] : ∀ (n : Nat) (w : List T), w.length ≤ n → w ≠ [] →
    ∀ (x : T) (sat sat' stored : Bool) (ns : List (LightNode T)),
    (stored = false → sat = true ∧ sat' = true) →
    (stored = true → ¬(sat = true ∧ sat' = true)) →
    frontierInvX w sat ns →
    ∃ ns', walkNodes ns x stored (stored && sat') = some ns' ∧
      frontierInv ((if sat then w else w.dropLast) ++ [x]) sat' ns' := by
  intro n
  induction n with
  | zero =>
    intro w hw hne
    obtain rfl : w = [] := List.length_eq_zero.mp (Nat.le_zero.mp hw)
    exact absurd rfl hne
  | succ n ih =>
    intro w hw hne x sat sat' stored ns hst0 hst1 hinv
    rcases w with _ | ⟨a, _ | ⟨b, _ | ⟨c, wr⟩⟩⟩
    · exact absurd rfl hne
    · obtain ⟨nd, rfl, hnd⟩ := (frontierInvX_one a sat ns).mp hinv
      obtain ⟨nd', hnew, hinv', hkey⟩ :=
        node_step [a] x sat sat' stored nd (by simp) hst0 hst1 hnd
      refine ⟨[nd'], by simp [walkNodes, hnew], ?_⟩
      rw [frontierInv_stop _ (by simp) (by cases sat <;> simp)]
      exact ⟨nd', rfl, hinv'⟩
    · obtain ⟨nd, hnd, hns⟩ := (frontierInvX_two a b sat ns).mp hinv
      obtain ⟨nd', hnew, hinv', hkey⟩ :=
        node_step [a, b] x sat sat' stored nd (by simp) hst0 hst1 hnd
      cases sat with
      | false =>
        rw [if_neg Bool.false_ne_true] at hns
        subst hns
        refine ⟨[nd'], by simp [walkNodes, hnew], ?_⟩
        rw [frontierInv_stop _ (by simp) (by simp)]
        exact ⟨nd', rfl, hinv'⟩
      | true =>
        rw [if_pos rfl] at hns
        subst hns
        have hfull : nd'.state.isFull = false := by
          rw [nodeInv_isFull _ sat' nd' hinv']
          simp
        have hndh : nd.hash = hash_of a b := by
          have hx := nodeInv_hash [a, b] true nd hnd
          simp only [levelUp, List.getLast?_singleton, Option.some.injEq] at hx
          exact hx.symm
        have hndh' : nd'.hash = hash_of x x := by
          have hx := nodeInv_hash _ sat' nd' hinv'
          have hlu : levelUp ((if true then [a, b] else ([a, b] : List T).dropLast) ++ [x])
              = [hash_of a b, hash_of x x] := rfl
          rw [hlu] at hx
          simp only [List.getLast?_cons_cons, List.getLast?_singleton,
            Option.some.injEq] at hx
          exact hx.symm
        refine ⟨[nd', ⟨hash_of nd.hash nd'.hash, NodeState.PartialRight nd.hash⟩], ?_, ?_⟩
        · have hpn : (⟨nd.hash, NodeState.PartialRight nd.hash⟩ : LightNode T).new_node
              nd'.hash true false
              = some (⟨hash_of nd.hash nd'.hash, NodeState.PartialRight nd.hash⟩, true) := by
            simp [LightNode.new_node]
          simp [walkNodes, hnew, hfull, hpn]
        · rw [if_pos rfl]
          rw [frontierInv_go ([a, b] ++ [x]) (by simp)]
          refine ⟨nd', [⟨hash_of nd.hash nd'.hash, NodeState.PartialRight nd.hash⟩],
            rfl, hinv', ?_⟩
          have hlu : levelUp ([a, b] ++ [x]) = [hash_of a b, hash_of x x] := rfl
          rw [hlu]
          have hsz : (sat' && decide ((([a, b] ++ [x]).length % 2 = 0))) = false := by
            simp
          rw [hsz]
          rw [frontierInv_stop _ (by simp) (by simp)]
          refine ⟨_, rfl, ?_⟩
          rw [nodeInv, if_pos (by simp)]
          refine ⟨hash_of a b, hash_of x x, by simp, by simp, ?_, ?_⟩
          · show hash_of nd.hash nd'.hash = hash_of (hash_of a b) (hash_of x x)
            rw [hndh, hndh']
          · rw [if_neg Bool.false_ne_true]
            show NodeState.PartialRight nd.hash = NodeState.PartialRight (hash_of a b)
            rw [hndh]
    · obtain ⟨nd, rest, rfl, hnd, hrest⟩ :=
        (frontierInvX_go (a :: b :: c :: wr) (by simp) sat ns).mp hinv
      obtain ⟨nd', hnew, hinv', hkey⟩ :=
        node_step (a :: b :: c :: wr) x sat sat' stored nd (by simp) hst0 hst1 hnd
      have hfull := nodeInv_isFull _ sat' nd' hinv'
      have hfuel : (levelUp (a :: b :: c :: wr)).length ≤ n := by
        rw [levelUp_length]
        simp only [List.length_cons]
        simp only [List.length_cons] at hw
        omega
      have hcon : ¬((sat && decide (((a :: b :: c :: wr).length % 2 = 0))) = true ∧
          (sat' && decide ((((if sat then (a :: b :: c :: wr)
            else (a :: b :: c :: wr).dropLast) ++ [x]).length % 2 = 0))) = true) := by
        rintro ⟨h2, h2'⟩
        rw [Bool.and_eq_true, decide_eq_true_eq] at h2 h2'
        obtain ⟨hs2, hm2⟩ := h2
        obtain ⟨hs2', hm2'⟩ := h2'
        rw [hs2, if_pos rfl] at hm2'
        simp only [List.length_append, List.length_singleton] at hm2'
        cases stored with
        | false => omega
        | true => exact (hst1 rfl) ⟨hs2, hs2'⟩
      obtain ⟨rest', hwalk, hrec⟩ :=
        ih (levelUp (a :: b :: c :: wr)) hfuel (levelUp_ne_nil _ (by simp)) nd'.hash
          (sat && decide (((a :: b :: c :: wr).length % 2 = 0)))
          (sat' && decide ((((if sat then (a :: b :: c :: wr)
            else (a :: b :: c :: wr).dropLast) ++ [x]).length % 2 = 0)))
          true rest (fun h => absurd h (by decide)) (fun _ => hcon) hrest
      rw [Bool.true_and] at hwalk
      rw [← hfull] at hwalk
      refine ⟨nd' :: rest', ?_, ?_⟩
      · simp [walkNodes, hnew, hwalk]
      · rw [frontierInv_go _ (by cases sat <;> simp [List.length_dropLast])]
        refine ⟨nd', rest', rfl, hinv', ?_⟩
        rw [hkey]
        exact hrec

/-- One `LightTree::append` preserves the frontier invariant. -/
theorem light_append_sim [Hash T] (l : List T) (x : T) (ns : List (LightNode T))
    (hinv : frontierInv l true ns) :
    ∃ ns', LightTree.append ⟨ns⟩ x = some ⟨ns'⟩ ∧ frontierInv (l ++ [x]) true ns' := by
  rcases l with _ | ⟨a0, l0⟩
  · rw [frontierInv_nil] at hinv
    subst hinv
    refine ⟨[⟨hash_of x x, NodeState.PartialRight x⟩], rfl, ?_⟩
    rw [frontierInv_stop _ (by simp) (by simp)]
    refine ⟨_, rfl, ?_⟩
    rw [nodeInv, if_neg (by simp)]
    exact ⟨x, by simp, rfl, by rw [if_pos rfl]⟩
  · have hne : (a0 :: l0) ≠ [] := by simp
    have hns_ne : ns ≠ [] := frontierInv_ne_nil _ hne _ ns hinv
    have hX := pushStep_inv (a0 :: l0).length _ le_rfl hne true ns hinv
    obtain ⟨ns', hwalk, hinv'⟩ :=
      walk_sim (a0 :: l0).length _ le_rfl hne x true true false (pushStep ns)
        (fun _ => ⟨rfl, rfl⟩) (fun h => absurd h (by decide)) hX
    refine ⟨ns', ?_, by simpa using hinv'⟩
    obtain ⟨n1, nrest, rfl⟩ : ∃ n1 nrest, ns = n1 :: nrest := by
      cases ns with
      | nil => exact absurd rfl hns_ne
      | cons n1 nrest => exact ⟨n1, nrest, rfl⟩
    show LightTree.append ⟨n1 :: nrest⟩ x = some ⟨ns'⟩
    simp only [LightTree.append, bind, Option.bind]
    rw [show (false && true) = false from rfl] at hwalk
    rw [hwalk]

/-- Every append sequence builds a light tree satisfying the frontier
invariant — in particular, `LightTree::append` never hits the failing
branch of the `assert!`. -/
theorem lightOf_inv [Hash T] (l : List T) :
    ∃ lt, lightOf l = some lt ∧ frontierInv l true lt.nodes := by
  induction l using List.reverseRecOn with
  | nil => exact ⟨⟨[]⟩, rfl, by rw [frontierInv_nil]⟩
  | append_singleton as a ihl =>
    obtain ⟨lt, hlt, hinv⟩ := ihl
    obtain ⟨ns', happ, hinv'⟩ := light_append_sim as a lt.nodes hinv
    refine ⟨⟨ns'⟩, ?_, hinv'⟩
    have h1 : lightOf (as ++ [a]) = (lightOf as).bind (fun t => LightTree.append t a) := by
      rw [lightOf, List.foldlM_append, lightOf]
      simp
    rw [h1, hlt, Option.some_bind]
    exact happ

/-- The topmost frontier node holds the root of the full tree. -/
theorem frontierInv_root [Hash T] : ∀ (n : Nat) (l : List T), l.length ≤ n → l ≠ [] →
    ∀ (sat : Bool) (ns : List (LightNode T)), frontierInv l sat ns →
    ns.getLast?.map LightNode.hash = rootOf l := by
  intro n
  induction n with
  | zero =>
    intro l hl hne
    obtain rfl : l = [] := List.length_eq_zero.mp (Nat.le_zero.mp hl)
    exact absurd rfl hne
  | succ n ih =>
    intro l hl hne sat ns hinv
    have hpos : 0 < l.length := List.length_pos.mpr hne
    rcases le_or_lt l.length 2 with hlen | hlen
    · obtain ⟨nd, rfl, hnd⟩ := (frontierInv_stop l hne hlen sat ns).mp hinv
      have h1 : (levelUp l).length = 1 := by
        rw [levelUp_length]
        omega
      rw [rootOf_eq l hne, if_pos h1, nodeInv_hash l sat nd hnd]
      simp
    · obtain ⟨nd, rest, rfl, hnd, hrest⟩ := (frontierInv_go l (by omega) sat ns).mp hinv
      have hune : levelUp l ≠ [] := levelUp_ne_nil l hne
      have hrne : rest ≠ [] := frontierInv_ne_nil _ hune _ rest hrest
      have h1 : (levelUp l).length ≠ 1 := by
        rw [levelUp_length]
        omega
      have hfuel : (levelUp l).length ≤ n := by
        rw [levelUp_length]
        omega
      rw [rootOf_eq l hne, if_neg h1, ← ih (levelUp l) hfuel hune _ rest hrest]
      obtain ⟨r, rs, rfl⟩ : ∃ r rs, rest = r :: rs := by
        cases rest with
        | nil => exact absurd rfl hrne
        | cons r rs => exact ⟨r, rs, rfl⟩
      rw [List.getLast?_cons_cons]

/-- C1: the full tree and the light tree agree on every root along every
append sequence: for all leaf lists, both constructions succeed and have
equal `root()`.  Quantifying over all lists covers every prefix. -/
theorem C1_root_equivalence [Hash T] (l : List T) :
    ∃ t lt, treeOf l = some t ∧ lightOf l = some lt ∧ t.root = lt.root := by
  obtain ⟨lt, hlt, hinv⟩ := lightOf_inv l
  refine ⟨⟨l, buildNodes l⟩, lt, treeOf_eq l, hlt, ?_⟩
  rcases l with _ | ⟨a, l0⟩
  · rw [frontierInv_nil] at hinv
    show Tree.root ⟨[], buildNodes []⟩ = lt.root
    rw [buildNodes_nil]
    simp [Tree.root, LightTree.root, hinv]
  · have hne : (a :: l0) ≠ [] := by simp
    have hr := frontierInv_root (a :: l0).length _ le_rfl hne true lt.nodes hinv
    show Tree.root ⟨a :: l0, buildNodes (a :: l0)⟩ = lt.root
    have ht : Tree.root ⟨a :: l0, buildNodes (a :: l0)⟩ = rootOf (a :: l0) := rfl
    rw [ht, ← hr]
    rfl

/-- C10: the `assert!(new_element_stored)` inside the `PartialLeft` arm of
`LightNode::new_node` never fails on a reachable light tree: the bottom
frontier node is never `PartialLeft` (it alternates `PartialRight`/`Full`),
so the flag is already `true` when any higher `PartialLeft` node is
reached.  In the embedding the failing assert is the only `none` of
`new_node`, so every append sequence from `LightTree::new()` succeeds. -/
theorem C10_assert_never_fails [Hash T] (l : List T) :
    ∃ lt, lightOf l = some lt := by
  obtain ⟨lt, hlt, -⟩ := lightOf_inv l
  exact ⟨lt, hlt⟩

/-- C2: for every append sequence and every index `i` below the number of
leaves, the proof returned by `proof_for(i)` verifies against the current
root and the `i`-th leaf digest. -/
theorem C2_proof_soundness [Hash T] [DecidableEq T] (l : List T) (i : Nat)
    (hi : i < l.length) :
    ∃ t pf r a, treeOf l = some t ∧ t.proof_for i = some (some pf) ∧
      t.root = some r ∧ l.get? i = some a ∧ pf.verify r a = true := by
  have ha : l.get? i = some (l.get ⟨i, hi⟩) := List.get?_eq_get hi
  obtain ⟨d, tail, r, hd, htail, hr, hfold⟩ := proof_fold l.length l le_rfl i _ ha
  refine ⟨⟨l, buildNodes l⟩, ⟨d :: tail⟩, r, l.get ⟨i, hi⟩, treeOf_eq l, ?_, hr, ha, ?_⟩
  · simp [Tree.proof_for, hd, htail]
  · simp only [Proof.verify, decide_eq_true_eq]
    exact hfold.symm

/-- Witness for C2 at the two-leaf tree of the Rust test, index 1. -/
theorem C2_proof_soundness_witness :
    1 < ([10, 200] : List Nat).length ∧
    (∃ t pf r a, treeOf ([10, 200] : List Nat) = some t ∧ t.proof_for 1 = some (some pf) ∧
      t.root = some r ∧ ([10, 200] : List Nat).get? 1 = some a ∧ pf.verify r a = true) :=
  ⟨by decide, C2_proof_soundness [10, 200] 1 (by decide)⟩

/-- C3 counterexample: appending a second leaf makes level 0's length even
(a new right sibling), and level 1 exists; the claim says the parent `3` is
then appended to level 1 (giving `[2, 3]`), but the code overwrites level
1's only entry (giving `[3]`). -/
theorem C3_counterexample :
    treeOf ([1] : List Nat) = some ⟨[1], [[2]]⟩ ∧
    Tree.append (⟨[1], [[2]]⟩ : Tree Nat) 2 = some ⟨[1, 2], [[3]]⟩ ∧
    Tree.append (⟨[1], [[2]]⟩ : Tree Nat) 2 ≠ some ⟨[1, 2], [[2, 3]]⟩ := by
  decide

/-- C3 amended: in a successful propagation step at a level whose updated
content has length `m > 1` with a level above it, the parent of the updated
level's last sibling pair *overwrites* the last entry of the level above
exactly when `m` is even or the level itself was overwritten (the sticky
flag), and is *appended* to the level above exactly when `m` is odd after a
push. -/
theorem C3_amended_step [Hash T] (lk lk1 : List T) (rest : List (List T)) (x : T)
    (flag : Bool) (out : List (List T))
    (hrun : update_next_layer (lk :: lk1 :: rest) x flag = some out)
    (hm : 1 < ((if flag then lk.dropLast else lk) ++ [x]).length) :
    ∃ p e tail,
      hash_of_siblings ((if flag then lk.dropLast else lk) ++ [x]) = some (p, e) ∧
      (e = true ↔ (((if flag then lk.dropLast else lk) ++ [x]).length % 2 = 0)) ∧
      out = ((if flag then lk.dropLast else lk) ++ [x])
        :: ((if (e || flag) then lk1.dropLast else lk1) ++ [p]) :: tail := by
  have hor := update_next_layer_inv lk (lk1 :: rest) x flag out hrun
  have hlkne : lk ≠ [] := by
    rcases hor with h | h
    · exact h
    · intro e
      subst e
      rw [h] at hm
      simp at hm
  have h1 : ((if flag then lk.dropLast else lk) ++ [x]).length ≠ 1 := by omega
  obtain ⟨p, e, rest', hp, hrec, hout, he⟩ :=
    update_next_layer_inv_go lk (lk1 :: rest) x flag out hrun hlkne h1
  have hor2 := update_next_layer_inv lk1 rest p (e || flag) rest' hrec
  obtain ⟨tail, htail⟩ :=
    update_next_layer_head lk1 rest p (e || flag) rest' hrec
      (by
        intro hb
        rcases hor2 with h | h
        · exact h
        · rw [h] at hb
          exact absurd hb Bool.false_ne_true)
  refine ⟨p, e, tail, hp, ?_, ?_⟩
  · rw [he]
    simp
  · rw [hout, htail]

/-- Witness for C3 amended: the step taken by the third append of the Rust
test tree (leaves `[1, 2, 3, 4]`), at the level pair `[3, 6]` / `[9]` with
the overwrite flag set. -/
theorem C3_amended_step_witness :
    update_next_layer ([[3, 6], [9]] : List (List Nat)) 7 true = some [[3, 7], [10]] ∧
    (1 < (((if true then ([3, 6] : List Nat).dropLast else [3, 6]) ++ [7]).length)) ∧
    (∃ p e tail,
      hash_of_siblings ((if true then ([3, 6] : List Nat).dropLast else [3, 6]) ++ [7])
        = some (p, e) ∧
      (e = true ↔
        ((((if true then ([3, 6] : List Nat).dropLast else [3, 6]) ++ [7]).length % 2 = 0))) ∧
      ([[3, 7], [10]] : List (List Nat))
        = ((if true then ([3, 6] : List Nat).dropLast else [3, 6]) ++ [7])
          :: ((if (e || true) then ([9] : List Nat).dropLast else [9]) ++ [p]) :: tail) :=
  ⟨by decide, by decide,
    C3_amended_step [3, 6] [9] [] 7 true [[3, 7], [10]] (by decide) (by decide)⟩

/-- C4: `proof_for` never returns the Rust `None` — the function body ends
in `Some(Proof {..})` unconditionally, with no index bound check.  In
particular, at the failing input (a 2-leaf tree queried at index 5) it
returns a `Some` proof of garbage entries instead of the `None` the spec
requires for `index ≥ n`. -/
theorem C4_proof_for_out_of_range :
    (∀ (T : Type) [Hash T] (l : List T) (i : Nat),
      ∃ t pf, treeOf l = some t ∧ t.proof_for i = some (some pf)) ∧
    Tree.proof_for (⟨[10, 200], [[210]]⟩ : Tree Nat) 5
      = some (some ⟨[ProofNode.None]⟩) := by
  constructor
  · intro T _ l i
    obtain ⟨pn, hpn⟩ := proof_node_total l i
    obtain ⟨tail, htail⟩ := proofLoop_total (buildNodes l) i
    exact ⟨⟨l, buildNodes l⟩, ⟨pn :: tail⟩, treeOf_eq l,
      by simp [Tree.proof_for, hpn, htail]⟩
  · decide

/-- C5: after every nonempty append sequence the level structure satisfies
the ceil-halving length law, the parent-combining law (real pair when the
right child exists, duplicated last entry otherwise), and the topmost level
is a single entry — the root — with no level above it. -/
theorem C5_level_invariants [Hash T] (l : List T) (hne : l ≠ []) :
    ∃ t, treeOf l = some t ∧
      (∀ k, k + 1 < (t.leaves :: t.nodes).length →
        ((t.leaves :: t.nodes).getD (k + 1) []).length
          = (((t.leaves :: t.nodes).getD k []).length + 1) / 2) ∧
      (∀ k p a b, k + 1 < (t.leaves :: t.nodes).length →
        ((t.leaves :: t.nodes).getD k []).get? (2 * p) = some a →
        ((t.leaves :: t.nodes).getD k []).get? (2 * p + 1) = some b →
        ((t.leaves :: t.nodes).getD (k + 1) []).get? p = some (hash_of a b)) ∧
      (∀ k p a, k + 1 < (t.leaves :: t.nodes).length →
        ((t.leaves :: t.nodes).getD k []).get? (2 * p) = some a →
        ((t.leaves :: t.nodes).getD k []).length = 2 * p + 1 →
        ((t.leaves :: t.nodes).getD (k + 1) []).get? p = some (hash_of a a)) ∧
      (∃ top, (t.leaves :: t.nodes).getLast? = some top ∧ top.length = 1 ∧
        top.getLast? = t.root) := by
  refine ⟨⟨l, buildNodes l⟩, treeOf_eq l, ?_, ?_, ?_, ?_⟩
  · intro k hk
    rw [levels_getD l.length l le_rfl hne k hk, levelUp_length]
  · intro k p a b hk ha hb
    rw [levels_getD l.length l le_rfl hne k hk]
    exact levelUp_get?_pair _ p a b ha hb
  · intro k p a hk ha hl
    rw [levels_getD l.length l le_rfl hne k hk]
    exact levelUp_get?_last _ p a ha hl
  · obtain ⟨top, htop, h1⟩ := buildNodes_getLast l.length l le_rfl hne
    refine ⟨top, ?_, h1, ?_⟩
    · rcases hbn : buildNodes l with _ | ⟨c, cs⟩
      · exact absurd hbn (buildNodes_ne_nil _ hne)
      · rw [hbn] at htop
        rw [List.getLast?_cons_cons]
        exact htop
    · show top.getLast? = (buildNodes l).getLast?.bind List.getLast?
      rw [htop]
      rfl

/-- Witness for C5 at the leaves `[1, 2, 3]`. -/
theorem C5_level_invariants_witness :
    ([1, 2, 3] : List Nat) ≠ [] ∧
    (∃ t, treeOf ([1, 2, 3] : List Nat) = some t ∧
      (∀ k, k + 1 < (t.leaves :: t.nodes).length →
        ((t.leaves :: t.nodes).getD (k + 1) []).length
          = (((t.leaves :: t.nodes).getD k []).length + 1) / 2) ∧
      (∀ k p a b, k + 1 < (t.leaves :: t.nodes).length →
        ((t.leaves :: t.nodes).getD k []).get? (2 * p) = some a →
        ((t.leaves :: t.nodes).getD k []).get? (2 * p + 1) = some b →
        ((t.leaves :: t.nodes).getD (k + 1) []).get? p = some (hash_of a b)) ∧
      (∀ k p a, k + 1 < (t.leaves :: t.nodes).length →
        ((t.leaves :: t.nodes).getD k []).get? (2 * p) = some a →
        ((t.leaves :: t.nodes).getD k []).length = 2 * p + 1 →
        ((t.leaves :: t.nodes).getD (k + 1) []).get? p = some (hash_of a a)) ∧
      (∃ top, (t.leaves :: t.nodes).getLast? = some top ∧ top.length = 1 ∧
        top.getLast? = t.root)) :=
  ⟨by decide, C5_level_invariants [1, 2, 3] (by decide)⟩

/-- C6 counterexample: appending `1` to the empty toy tree creates a new
stored level (so `nodes` is no longer empty) and the root becomes
`hash_of 1 1 = 2`, not the appended digest `1` the claim requires. -/
theorem C6_counterexample :
    treeOf ([1] : List Nat) = some ⟨[1], [[2]]⟩ ∧
    (treeOf ([1] : List Nat)).map (fun t => t.nodes.length) = some 1 ∧
    (treeOf ([1] : List Nat)).map Tree.root = some (some 2) ∧
    some (some (2 : Nat)) ≠ some (some 1) := by
  decide

/-- C6 amended: appending `h` to the empty tree creates exactly one stored
level holding `hash_of h h`, and `root()` returns `hash_of h h` (the
duplicate-self parent), not `h`. -/
theorem C6_single_append [Hash T] (h : T) :
    Tree.new.append h = some ⟨[h], [[hash_of h h]]⟩ ∧
    Tree.root (⟨[h], [[hash_of h h]]⟩ : Tree T) = some (hash_of h h) := by
  constructor
  · have hs := append_sim ([] : List T) h
    rw [buildNodes_nil] at hs
    simpa [buildNodes_singleton] using hs
  · simp [Tree.root]

/-- C9: on every reachable tree, `append`, `root` and `proof_for` are total:
no `hash_of_siblings` call sees an empty level, the overwrite branch only
runs on nonempty levels, and the `index - 1` of proof emission only happens
at odd indices — so none of the modelled panics (`none`) occur. -/
theorem C9_total_no_panic [Hash T] (l : List T) (x : T) (i : Nat) :
    ∃ t, treeOf l = some t ∧ t.root = rootOf l ∧
      (∃ t2, Tree.append t x = some t2) ∧
      (∃ pf, Tree.proof_for t i = some pf) := by
  refine ⟨⟨l, buildNodes l⟩, treeOf_eq l, rfl, ⟨_, append_sim l x⟩, ?_⟩
  obtain ⟨pn, hpn⟩ := proof_node_total l i
  obtain ⟨tail, htail⟩ := proofLoop_total (buildNodes l) i
  exact ⟨some ⟨pn :: tail⟩, by simp [Tree.proof_for, hpn, htail]⟩

end Merkle

namespace Sha3

/-!
Model of src/sha3.rs's textual digest interface.  A digest value
(`Hash(Output<Sha3_256>)`) is 32 raw bytes; here a byte list.  `FromStr`
is `hex::decode(s)?` followed by `Output::clone_from_slice(&bytes)`;
`Display` is `hex::encode(self.0)`.  The hex crate decodes pairs of hex
digits, accepting both lowercase and uppercase, and fails on an odd length
or a non-hex character; it is modelled from that documented behaviour.
`clone_from_slice` panics when the decoded byte count is not exactly 32 —
an outcome distinct from the `Err` that `?` propagates, hence the
three-valued result type. -/

/-- The digest byte width of SHA3-256. -/
def HASH_LEN : Nat := 32

/-- Value of one hex digit as the hex crate reads it: `0-9`, `a-f` and `A-F`. -/
def hexDigitVal (c : Char) : Option Nat :=
  if '0' ≤ c ∧ c ≤ '9' then some (c.toNat - 48)
  else if 'a' ≤ c ∧ c ≤ 'f' then some (c.toNat - 87)
  else if 'A' ≤ c ∧ c ≤ 'F' then some (c.toNat - 55)
  else none

/-- `hex::decode`: consume the characters two at a time; `none` on an odd
length or a non-hex character. -/
def hexDecode : List Char → Option (List Nat)
  | [] => some []
  | [_] => none
  | c1 :: c2 :: rest => do
    let hi ← hexDigitVal c1
    let lo ← hexDigitVal c2
    let tail ← hexDecode rest
    some ((hi * 16 + lo) :: tail)

/-- Lowercase hex digit of a nibble, as `hex::encode` writes it. -/
def hexDigitChar (n : Nat) : Char :=
  if n < 10 then Char.ofNat (48 + n) else Char.ofNat (87 + n)

/-- `hex::encode`: two lowercase digits per byte, high nibble first. -/
def hexEncode : List Nat → List Char
  | [] => []
  | b :: rest => hexDigitChar (b / 16) :: hexDigitChar (b % 16) :: hexEncode rest

/-- Result of `Hash::from_str`: `ok` (the `Ok(Hash(..))` return), `err`
(the error that `hex::decode(s)?` propagates), or `panic` (the
`clone_from_slice` length-mismatch panic). -/
inductive ParseOutcome (A : Type) where
  | ok : A → ParseOutcome A
  | err : ParseOutcome A
  | panic : ParseOutcome A
deriving DecidableEq

/-- `Hash::from_str(s)`: `hex::decode(s)?`, then
`Output::<Sha3_256>::clone_from_slice(&bytes)` — the latter panics unless
exactly 32 bytes were decoded. -/
def from_str (s : List Char) : ParseOutcome (List Nat) :=
  match hexDecode s with
  | none => ParseOutcome.err
  | some bytes =>
    if bytes.length = HASH_LEN then ParseOutcome.ok bytes else ParseOutcome.panic

/-- `Display for Hash`: `hex::encode(self.0)`. -/
def to_hex (bytes : List Nat) : List Char :=
  hexEncode bytes

theorem hexDecode_none : ∀ s : List Char,
    hexDecode s = none ↔ (s.length % 2 = 1 ∨ ∃ c ∈ s, hexDigitVal c = none)
  | [] => by simp [hexDecode]
  | [c] => by simp [hexDecode]
  | c1 :: c2 :: rest => by
    rcases h1 : hexDigitVal c1 with _ | v1
    · exact iff_of_true (by simp [hexDecode, h1]) (Or.inr ⟨c1, by simp, h1⟩)
    · rcases h2 : hexDigitVal c2 with _ | v2
      · exact iff_of_true (by simp [hexDecode, h1, h2]) (Or.inr ⟨c2, by simp, h2⟩)
      · have hstep : hexDecode (c1 :: c2 :: rest) = none ↔ hexDecode rest = none := by
          rcases hr : hexDecode rest with _ | l <;> simp [hexDecode, h1, h2, hr]
        rw [hstep, hexDecode_none rest]
        constructor
        · rintro (h | ⟨c, hc, hcv⟩)
          · left
            simp only [List.length_cons]
            omega
          · right
            exact ⟨c, by simp [hc], hcv⟩
        · rintro (h | ⟨c, hc, hcv⟩)
          · left
            simp only [List.length_cons] at h
            omega
          · simp only [List.mem_cons] at hc
            rcases hc with rfl | rfl | hc
            · rw [h1] at hcv
              exact absurd hcv (by simp)
            · rw [h2] at hcv
              exact absurd hcv (by simp)
            · exact Or.inr ⟨c, hc, hcv⟩

theorem hexDecode_length : ∀ (s : List Char) (bytes : List Nat),
    hexDecode s = some bytes → bytes.length = s.length / 2
  | [], bytes, h => by
    simp [hexDecode] at h
    subst h
    simp
  | [c], bytes, h => by
    simp [hexDecode] at h
  | c1 :: c2 :: rest, bytes, h => by
    simp only [hexDecode] at h
    rcases h1 : hexDigitVal c1 with _ | v1 <;> rw [h1] at h
    · simp at h
    · rcases h2 : hexDigitVal c2 with _ | v2 <;> rw [h2] at h
      · simp at h
      · rcases hr : hexDecode rest with _ | tail <;> rw [hr] at h
        · simp at h
        · simp at h
          subst h
          have htail := hexDecode_length rest tail hr
          simp only [List.length_cons, htail]
          omega

theorem from_str_some (s : List Char) (bytes : List Nat) (hd : hexDecode s = some bytes) :
    from_str s
      = (if bytes.length = HASH_LEN then ParseOutcome.ok bytes else ParseOutcome.panic) := by
  rw [from_str, hd]

theorem from_str_err_iff (s : List Char) :
    from_str s = ParseOutcome.err ↔
      (s.length % 2 = 1 ∨ ∃ c ∈ s, hexDigitVal c = none) := by
  rw [← hexDecode_none]
  rw [from_str]
  rcases hd : hexDecode s with _ | bytes
  · simp
  · by_cases h32 : bytes.length = HASH_LEN <;> simp [h32]

theorem hexDecode_not_none (s : List Char) (bytes : List Nat)
    (hd : hexDecode s = some bytes) :
    s.length % 2 = 0 ∧ ∀ c ∈ s, (hexDigitVal c).isSome := by
  have hne : ¬(s.length % 2 = 1 ∨ ∃ c ∈ s, hexDigitVal c = none) := by
    rw [← hexDecode_none, hd]
    simp
  push_neg at hne
  exact ⟨by omega, fun c hc => Option.ne_none_iff_isSome.mp (hne.2 c hc)⟩

theorem from_str_ok_iff (s : List Char) :
    (∃ bytes, from_str s = ParseOutcome.ok bytes) ↔
      (s.length = 64 ∧ ∀ c ∈ s, (hexDigitVal c).isSome) := by
  rcases hd : hexDecode s with _ | bytes
  · refine iff_of_false ?_ ?_
    · rintro ⟨b, hb⟩
      rw [from_str, hd] at hb
      cases hb
    · rintro ⟨h64, hall⟩
      have hnone := hd
      rw [hexDecode_none] at hnone
      rcases hnone with h | ⟨c, hc, hcv⟩
      · omega
      · have := hall c hc
        rw [hcv] at this
        cases this
  · obtain ⟨heven, hall⟩ := hexDecode_not_none s bytes hd
    have hlen2 := hexDecode_length s bytes hd
    by_cases h32 : bytes.length = HASH_LEN
    · refine iff_of_true ⟨bytes, ?_⟩ ⟨?_, hall⟩
      · rw [from_str_some s bytes hd, if_pos h32]
      · rw [HASH_LEN] at h32
        omega
    · refine iff_of_false ?_ ?_
      · rintro ⟨b, hb⟩
        rw [from_str_some s bytes hd, if_neg h32] at hb
        cases hb
      · rintro ⟨h64, -⟩
        apply h32
        rw [HASH_LEN]
        omega

theorem from_str_panic_iff (s : List Char) :
    from_str s = ParseOutcome.panic ↔
      (s.length % 2 = 0 ∧ s.length ≠ 64 ∧ ∀ c ∈ s, (hexDigitVal c).isSome) := by
  rcases hd : hexDecode s with _ | bytes
  · refine iff_of_false ?_ ?_
    · intro hb
      rw [from_str, hd] at hb
      cases hb
    · rintro ⟨heven, -, hall⟩
      have hnone := hd
      rw [hexDecode_none] at hnone
      rcases hnone with h | ⟨c, hc, hcv⟩
      · omega
      · have := hall c hc
        rw [hcv] at this
        cases this
  · obtain ⟨heven, hall⟩ := hexDecode_not_none s bytes hd
    have hlen2 := hexDecode_length s bytes hd
    by_cases h32 : bytes.length = HASH_LEN
    · refine iff_of_false ?_ ?_
      · intro hb
        rw [from_str_some s bytes hd, if_pos h32] at hb
        cases hb
      · rintro ⟨-, h64, -⟩
        apply h64
        rw [HASH_LEN] at h32
        omega
    · refine iff_of_true ?_ ⟨heven, ?_, hall⟩
      · rw [from_str_some s bytes hd, if_neg h32]
      · intro h64
        apply h32
        rw [HASH_LEN]
        omega

theorem hexDigitChar_val : ∀ n, n < 16 → hexDigitVal (hexDigitChar n) = some n := by
  decide

theorem hexDigitChar_lower : ∀ n, n < 16 →
    (('0' ≤ hexDigitChar n ∧ hexDigitChar n ≤ '9') ∨
     ('a' ≤ hexDigitChar n ∧ hexDigitChar n ≤ 'f')) := by
  decide

theorem hexEncode_length : ∀ l : List Nat, (hexEncode l).length = 2 * l.length
  | [] => rfl
  | b :: rest => by
    simp only [hexEncode, List.length_cons, hexEncode_length rest]
    omega

theorem hexDecode_hexEncode : ∀ l : List Nat, (∀ b ∈ l, b < 256) →
    hexDecode (hexEncode l) = some l
  | [], _ => rfl
  | b :: rest, h => by
    have hb : b < 256 := h b (by simp)
    have h1 := hexDigitChar_val (b / 16) (by omega)
    have h2 := hexDigitChar_val (b % 16) (by omega)
    have hr := hexDecode_hexEncode rest (fun x hx => h x (by simp [hx]))
    have hbb : b / 16 * 16 + b % 16 = b := by omega
    simp only [hexEncode, hexDecode, h1, h2, hr, Option.bind_eq_bind, Option.some_bind,
      hbb]

theorem hexEncode_mem : ∀ (l : List Nat), (∀ b ∈ l, b < 256) → ∀ c ∈ hexEncode l,
    (('0' ≤ c ∧ c ≤ '9') ∨ ('a' ≤ c ∧ c ≤ 'f'))
  | [], _, c, hc => by simp [hexEncode] at hc
  | b :: rest, h, c, hc => by
    have hb : b < 256 := h b (by simp)
    simp only [hexEncode, List.mem_cons] at hc
    rcases hc with rfl | rfl | hc
    · exact hexDigitChar_lower (b / 16) (by omega)
    · exact hexDigitChar_lower (b % 16) (by omega)
    · exact hexEncode_mem rest (fun x hx => h x (by simp [hx])) c hc

/-- C7 counterexample: the claim requires an error for any uppercase digit
and for any wrong length, and forbids panics; the code accepts a 64-char
uppercase string (the hex crate decodes both cases), and panics — rather
than erring — on a well-formed hex string of the wrong (even) length. -/
theorem C7_counterexample :
    from_str (List.replicate 64 'A') = ParseOutcome.ok (List.replicate 32 170) ∧
    from_str ['0', '0'] = ParseOutcome.panic ∧
    (ParseOutcome.ok (List.replicate 32 170) ≠ (ParseOutcome.err : ParseOutcome (List Nat))) ∧
    ((ParseOutcome.panic : ParseOutcome (List Nat)) ≠ ParseOutcome.err) := by
  refine ⟨?_, by decide, by decide, by decide⟩
  decide

/-- C7 amended: `Hash::from_str` errs exactly on an odd length or a
non-hex character (either case accepted); it succeeds exactly on 64-char
hex strings of either case; and it panics (in `clone_from_slice`) exactly
on even-length hex strings of any other length. -/
theorem C7_parse_strictness (s : List Char) :
    (from_str s = ParseOutcome.err ↔
      (s.length % 2 = 1 ∨ ∃ c ∈ s, hexDigitVal c = none)) ∧
    ((∃ bytes, from_str s = ParseOutcome.ok bytes) ↔
      (s.length = 64 ∧ ∀ c ∈ s, (hexDigitVal c).isSome)) ∧
    (from_str s = ParseOutcome.panic ↔
      (s.length % 2 = 0 ∧ s.length ≠ 64 ∧ ∀ c ∈ s, (hexDigitVal c).isSome)) :=
  ⟨from_str_err_iff s, from_str_ok_iff s, from_str_panic_iff s⟩

/-- C8: rendering a valid 32-byte digest to hex and parsing it back is the
identity, and the rendering is 64 lowercase hex characters. -/
theorem C8_hex_round_trip (bytes : List Nat) (hlen : bytes.length = 32)
    (hval : ∀ b ∈ bytes, b < 256) :
    from_str (to_hex bytes) = ParseOutcome.ok bytes ∧
    (to_hex bytes).length = 64 ∧
    (∀ c ∈ to_hex bytes, (('0' ≤ c ∧ c ≤ '9') ∨ ('a' ≤ c ∧ c ≤ 'f'))) := by
  refine ⟨?_, ?_, hexEncode_mem bytes hval⟩
  · rw [from_str_some (to_hex bytes) bytes
        (by rw [to_hex]; exact hexDecode_hexEncode bytes hval),
      if_pos (by rw [hlen]; rfl)]
  · rw [to_hex, hexEncode_length, hlen]

/-- Witness for C8 at the constant digest of 32 bytes `0xab`. -/
theorem C8_hex_round_trip_witness :
    (List.replicate 32 (171 : Nat)).length = 32 ∧
    (∀ b ∈ List.replicate 32 (171 : Nat), b < 256) ∧
    (from_str (to_hex (List.replicate 32 (171 : Nat)))
        = ParseOutcome.ok (List.replicate 32 171) ∧
      (to_hex (List.replicate 32 (171 : Nat))).length = 64 ∧
      (∀ c ∈ to_hex (List.replicate 32 (171 : Nat)),
        (('0' ≤ c ∧ c ≤ '9') ∨ ('a' ≤ c ∧ c ≤ 'f')))) :=
  ⟨by decide, by decide, C8_hex_round_trip (List.replicate 32 171) (by decide) (by decide)⟩

end Sha3
